import Mathlib

/-!
# BareMetal-ML kernels (`src/cpp_kernels.cpp`)

A shallow embedding of the numeric kernels and the properties proved about them.

Conventions of the embedding:

* a C buffer is a `List`; a read or a write outside the buffer has no result (`none`), so a
  run that returns `some` made no out-of-bounds access;
* a C loop is `loop cond body fuel`, and each kernel passes a bound (`n + 1`) that its loops
  never reach; the run theorems prove that the kernels return;
* C `int` counters are unbounded integers (`Int`); in `matmul_int8` the `int` subscripts
  `i * N + j` and the `int32_t` accumulation are checked (`sub_i32`, `add_i32`: no result on
  overflow); in `matmul_naive`, whose arithmetic is read exactly, the subscripts are exact;
* the kernels that only compare (`relu_naive`, `relu_avx`, `find_max`) are generic in the
  element type, which is instantiated by linear orders and by `F32`, the values of a C
  `float` with NaN, infinities and signed zero;
* the kernels that compute (`softmax_naive`, `matmul_naive`, `quantize_tensor`,
  `gelu_naive`) read the arithmetic exactly, over a linearly ordered field (a semiring for
  `matmul_naive`, a field for `gelu_naive`), with `std::exp` and `std::tanh` parameters that
  the theorems instantiate by `Real.exp` and `Real.tanh`; in `quantize_tensor` the rounding
  of the product to `float` is a parameter `rnd`, and the theorems hold for every rounding
  (or for every monotone rounding that is exact on the integers up to 127).
-/

namespace BareMetal

universe u

/-! ## Definitions: buffers and loops -/

/-- Read of `buf[i]` for a signed C index; there is no result outside the buffer. -/
def rd {α : Type u} (buf : List α) (i : Int) : Option α :=
  if 0 ≤ i then buf[i.toNat]? else none

/-- Write `buf[i] = v` for a signed C index; there is no result outside the buffer. -/
def wr {α : Type u} (buf : List α) (i : Int) (v : α) : Option (List α) :=
  if 0 ≤ i ∧ i.toNat < buf.length then some (buf.set i.toNat v) else none

/-- A C loop `for (; cond; ) body` over a state, run with a bound on the number of
iterations: `none` when the body has no result or the bound is reached. -/
def loop {σ : Type u} (cond : σ → Bool) (body : σ → Option σ) : Nat → σ → Option σ
  | 0, _ => none
  | fuel + 1, s => if cond s then (body s).bind (loop cond body fuel) else some s

/-! ## Definitions: the kernels -/

/-- Body of the scalar rectifier loops: `if (data[i] < 0) data[i] = 0;` then `i++`. -/
def relu_step {α : Type u} [Zero α] [LT α] [DecidableRel (α := α) (· < ·)]
    (s : Int × List α) : Option (Int × List α) :=
  (rd s.2 s.1).bind fun x =>
    (if x < 0 then wr s.2 s.1 0 else some s.2).bind fun d =>
      some (s.1 + 1, d)

/-- The function `relu_naive(float* data, int n)`. -/
def relu_naive {α : Type u} [Zero α] [LT α] [DecidableRel (α := α) (· < ·)]
    (data : List α) (n : Int) : Option (List α) :=
  (loop (fun s : Int × List α => decide (s.1 < n)) relu_step (n.toNat + 1) (0, data)).map Prod.snd

/-- One lane of `_mm256_max_ps(a, b)`: `a > b ? a : b` (the second operand is returned
when the comparison is false, in particular when an operand is NaN or both are zeros). -/
def max_ps {α : Type u} [LT α] [DecidableRel (α := α) (· < ·)] (a b : α) : α :=
  if b < a then a else b

/-- The intrinsic `_mm256_loadu_ps(&data[i])`: the 8 lanes `data[i] .. data[i+7]`. -/
def loadu_ps {α : Type u} (buf : List α) (i : Int) : Option (List α) :=
  if 0 ≤ i ∧ i.toNat + 8 ≤ buf.length then some ((buf.drop i.toNat).take 8) else none

/-- The intrinsic `_mm256_storeu_ps(&data[i], v)`: the 8 lanes of `v` over `data[i] .. data[i+7]`. -/
def storeu_ps {α : Type u} (buf : List α) (i : Int) (v : List α) : Option (List α) :=
  if 0 ≤ i ∧ i.toNat + 8 ≤ buf.length then
    some (buf.take i.toNat ++ v.take 8 ++ buf.drop (i.toNat + 8))
  else none

/-- Body of the main loop of `relu_avx`: load, lane-wise max with the zero vector, store,
then `i += 8`. -/
def relu_avx_step {α : Type u} [Zero α] [LT α] [DecidableRel (α := α) (· < ·)]
    (s : Int × List α) : Option (Int × List α) :=
  (loadu_ps s.2 s.1).bind fun input =>
    (storeu_ps s.2 s.1 (List.zipWith max_ps input (List.replicate 8 0))).bind fun d =>
      some (s.1 + 8, d)

/-- The function `relu_avx(float* data, int n)`: the 8-wide main loop while `i <= n - 8`
(a signed subtraction: negative for `n < 8`), then the cleanup loop from the same `i`. -/
def relu_avx {α : Type u} [Zero α] [LT α] [DecidableRel (α := α) (· < ·)]
    (data : List α) (n : Int) : Option (List α) :=
  (loop (fun s : Int × List α => decide (s.1 ≤ n - 8)) relu_avx_step (n.toNat + 1) (0, data)).bind
    fun s1 =>
      (loop (fun s : Int × List α => decide (s.1 < n)) relu_step (n.toNat + 1) s1).map Prod.snd

/-- What the scalar rectifier body leaves in one element: `x < 0 ? 0 : x`. -/
def relu {α : Type u} [Zero α] [LT α] [DecidableRel (α := α) (· < ·)] (x : α) : α :=
  if x < 0 then 0 else x

/-- The values of a C `float` as far as comparisons see them: NaN, the two infinities,
negative zero, and the finite values (`fin 0` is positive zero). -/
inductive F32 where
  | nan : F32
  | negInf : F32
  | posInf : F32
  | negZero : F32
  | fin (q : ℚ) : F32
deriving DecidableEq

/-- The comparison `a < b` of IEEE-754: false when an operand is NaN, and the two
zeros are equal. -/
def F32.lt : F32 → F32 → Bool
  | .nan, _ => false
  | _, .nan => false
  | .negInf, .negInf => false
  | .negInf, _ => true
  | _, .negInf => false
  | .posInf, _ => false
  | _, .posInf => true
  | .negZero, .negZero => false
  | .negZero, .fin q => decide (0 < q)
  | .fin q, .negZero => decide (q < 0)
  | .fin p, .fin q => decide (p < q)

instance : LT F32 := ⟨fun a b => F32.lt a b = true⟩

instance : DecidableRel (α := F32) (· < ·) := fun a b => inferInstanceAs (Decidable (F32.lt a b = true))

instance : Zero F32 := ⟨F32.fin 0⟩


/-- Body of the loop of `find_max`: `if (data[i] > max_val) max_val = data[i];` then `i++`. -/
def find_max_step {α : Type u} [LT α] [DecidableRel (α := α) (· < ·)]
    (data : List α) (s : Int × α) : Option (Int × α) :=
  (rd data s.1).bind fun x => some (s.1 + 1, if s.2 < x then x else s.2)

/-- The function `find_max(const float* data, int n)`: starts from `data[0]`, scans from index 1. -/
def find_max {α : Type u} [LT α] [DecidableRel (α := α) (· < ·)]
    (data : List α) (n : Int) : Option α :=
  (rd data 0).bind fun m0 =>
    (loop (fun s : Int × α => decide (s.1 < n)) (find_max_step data) (n.toNat + 1) (1, m0)).map
      Prod.snd

/-- Body of the first loop of `softmax_naive`, on the state `(i, output, sum)`:
`output[i] = exp(input[i] - max_val); sum += output[i];` then `i++`. -/
def softmax_exp_step {α : Type u} [LinearOrderedField α] (exp : α → α) (input : List α)
    (max_val : α) (s : Int × List α × α) : Option (Int × List α × α) :=
  (rd input s.1).bind fun x =>
    (wr s.2.1 s.1 (exp (x - max_val))).bind fun out =>
      (rd out s.1).bind fun y =>
        some (s.1 + 1, out, s.2.2 + y)

/-- Body of the second loop of `softmax_naive`: `output[i] /= sum;` then `i++`. -/
def softmax_div_step {α : Type u} [LinearOrderedField α] (sum : α) (s : Int × List α) :
    Option (Int × List α) :=
  (rd s.2 s.1).bind fun y =>
    (wr s.2 s.1 (y / sum)).bind fun out =>
      some (s.1 + 1, out)

/-- The function `softmax_naive(const float* input, float* output, int n)`, with the
arithmetic of the element type read exactly and `std::exp` passed as `exp`. -/
def softmax_naive {α : Type u} [LinearOrderedField α] (exp : α → α)
    (input output : List α) (n : Int) : Option (List α) :=
  (find_max input n).bind fun max_val =>
    (loop (fun s : Int × List α × α => decide (s.1 < n)) (softmax_exp_step exp input max_val)
        (n.toNat + 1) (0, output, 0)).bind fun s1 =>
      (loop (fun s : Int × List α => decide (s.1 < n)) (softmax_div_step s1.2.2)
        (n.toNat + 1) (0, s1.2.1)).map Prod.snd

/-- Body of the `j` loop of `matmul_naive`: `C[i * N + j] += val_A * B[k * N + j];` then `j++`. -/
def matmul_j_step {α : Type u} [Add α] [Mul α] (B : List α) (N i k : Int) (val_A : α)
    (s : Int × List α) : Option (Int × List α) :=
  (rd B (k * N + s.1)).bind fun b =>
    (rd s.2 (i * N + s.1)).bind fun c =>
      (wr s.2 (i * N + s.1) (c + val_A * b)).bind fun C =>
        some (s.1 + 1, C)

/-- Body of the `k` loop of `matmul_naive`: `val_A = A[i * N + k];`, the `j` loop, then `k++`. -/
def matmul_k_step {α : Type u} [Add α] [Mul α] (A B : List α) (N i : Int)
    (s : Int × List α) : Option (Int × List α) :=
  (rd A (i * N + s.1)).bind fun val_A =>
    (loop (fun t : Int × List α => decide (t.1 < N)) (matmul_j_step B N i s.1 val_A)
        (N.toNat + 1) (0, s.2)).bind fun t =>
      some (s.1 + 1, t.2)

/-- Body of the `i` loop of `matmul_naive`: the `k` loop, then `i++`. -/
def matmul_i_step {α : Type u} [Add α] [Mul α] (A B : List α) (N : Int)
    (s : Int × List α) : Option (Int × List α) :=
  (loop (fun t : Int × List α => decide (t.1 < N)) (matmul_k_step A B N s.1)
      (N.toNat + 1) (0, s.2)).bind fun t =>
    some (s.1 + 1, t.2)

/-- The function `matmul_naive(const float* A, const float* B, float* C, int N)`, with the
arithmetic of the element type read exactly. -/
def matmul_naive {α : Type u} [Add α] [Mul α] (A B C : List α) (N : Int) : Option (List α) :=
  (loop (fun s : Int × List α => decide (s.1 < N)) (matmul_i_step A B N)
      (N.toNat + 1) (0, C)).map Prod.snd

/-- Conversion of a C `float` to an integer: rounds toward zero. -/
def trunc {α : Type u} [LinearOrderedField α] [FloorRing α] (x : α) : Int :=
  if 0 ≤ x then ⌊x⌋ else ⌈x⌉

/-- The cast `(int8_t)(val)`: the truncated value, with no result when it does not fit
in `int8_t` (undefined behaviour in C++). -/
def to_int8 {α : Type u} [LinearOrderedField α] [FloorRing α] (val : α) : Option Int :=
  if -128 ≤ trunc val ∧ trunc val ≤ 127 then some (trunc val) else none

/-- The two guarded assignments of `quantize_tensor`:
`if (val > 127.0f) val = 127.0f; if (val < -127.0f) val = -127.0f;`. -/
def quantize_clamp {α : Type u} [LinearOrderedField α] (val : α) : α :=
  let val1 := if 127 < val then 127 else val
  if val1 < -127 then -127 else val1

/-- Body of the loop of `quantize_tensor`: `float val = input[i] * scale;` (the product
rounded to `float`: `rnd` of the exact product), the two clamps, the cast, the store, then
`i++`. -/
def quantize_step {α : Type u} [LinearOrderedField α] [FloorRing α] (rnd : α → α)
    (input : List α) (scale : α) (s : Int × List Int) : Option (Int × List Int) :=
  (rd input s.1).bind fun x =>
    (to_int8 (quantize_clamp (rnd (x * scale)))).bind fun q =>
      (wr s.2 s.1 q).bind fun out =>
        some (s.1 + 1, out)

/-- The function `quantize_tensor(const float* input, int8_t* output, int n, float scale)`.
The rounding of the product `input[i] * scale` to `float` is the parameter `rnd`; the
comparisons, the clamps and the cast are exact operations on the rounded product. -/
def quantize_tensor {α : Type u} [LinearOrderedField α] [FloorRing α] (rnd : α → α)
    (input : List α) (output : List Int) (n : Int) (scale : α) : Option (List Int) :=
  (loop (fun s : Int × List Int => decide (s.1 < n)) (quantize_step rnd input scale)
      (n.toNat + 1) (0, output)).map Prod.snd

/-- The mapping of the data model, `q = clamp(trunc(x*scale), -127, 127)`, where `x*scale`
is the `float` product (`rnd` of the exact product): truncate first, then clamp the
integer. -/
def quantize_spec {α : Type u} [LinearOrderedField α] [FloorRing α] (rnd : α → α)
    (x scale : α) : Int :=
  max (-127) (min 127 (trunc (rnd (x * scale))))

/-- A rounding to nearest on the grid of the multiples of 1/8: a small concrete rounding,
monotone and exact on the integers like the rounding to `float`, for the witnesses. -/
def round_grid (v : ℚ) : ℚ :=
  (⌊v * 8 + 1 / 2⌋ : ℚ) / 8

/-- Addition of two `int32_t` values: signed overflow is undefined behaviour in C++ (a
wraparound on the usual targets), so there is no result when the sum leaves the range. -/
def add_i32 (a b : Int) : Option Int :=
  if -2 ^ 31 ≤ a + b ∧ a + b ≤ 2 ^ 31 - 1 then some (a + b) else none

/-- Multiplication of two `int` values: signed overflow is undefined behaviour in C++, so
there is no result when the product leaves the range. -/
def mul_i32 (a b : Int) : Option Int :=
  if -2 ^ 31 ≤ a * b ∧ a * b ≤ 2 ^ 31 - 1 then some (a * b) else none

/-- The subscript expression `a * N + c` of the matrix kernels, computed in `int`. -/
def sub_i32 (a N c : Int) : Option Int :=
  (mul_i32 a N).bind fun p => add_i32 p c

/-- Body of the `j` loop of `matmul_int8`: `C[i * N + j] += val_A * B[k * N + j];` with the
subscripts computed in `int`, the `int8_t` operands promoted to `int` and the sum formed in
`int32_t`, then `j++`. -/
def matmul_int8_j_step (B : List Int) (N i k : Int) (val_A : Int)
    (s : Int × List Int) : Option (Int × List Int) :=
  (sub_i32 k N s.1).bind fun kj =>
    (rd B kj).bind fun b =>
      (sub_i32 i N s.1).bind fun ij =>
        (rd s.2 ij).bind fun c =>
          (add_i32 c (val_A * b)).bind fun v =>
            (wr s.2 ij v).bind fun C =>
              some (s.1 + 1, C)

/-- Body of the `k` loop of `matmul_int8`: `val_A = A[i * N + k];` with the subscript
computed in `int`, the `j` loop, then `k++`. -/
def matmul_int8_k_step (A B : List Int) (N i : Int)
    (s : Int × List Int) : Option (Int × List Int) :=
  (sub_i32 i N s.1).bind fun ik =>
    (rd A ik).bind fun val_A =>
      (loop (fun t : Int × List Int => decide (t.1 < N)) (matmul_int8_j_step B N i s.1 val_A)
          (N.toNat + 1) (0, s.2)).bind fun t =>
        some (s.1 + 1, t.2)

/-- Body of the `i` loop of `matmul_int8`. -/
def matmul_int8_i_step (A B : List Int) (N : Int)
    (s : Int × List Int) : Option (Int × List Int) :=
  (loop (fun t : Int × List Int => decide (t.1 < N)) (matmul_int8_k_step A B N s.1)
      (N.toNat + 1) (0, s.2)).bind fun t =>
    some (s.1 + 1, t.2)

/-- The function `matmul_int8(const int8_t* A, const int8_t* B, int32_t* C, int N)`. -/
def matmul_int8 (A B C : List Int) (N : Int) : Option (List Int) :=
  (loop (fun s : Int × List Int => decide (s.1 < N)) (matmul_int8_i_step A B N)
      (N.toNat + 1) (0, C)).map Prod.snd

/-- The constant `SQRT_2_OVER_PI = 0.7978845608f` of `gelu_naive`, read as the decimal. -/
def SQRT_2_OVER_PI {α : Type u} [Field α] : α := 0.7978845608

/-- The constant `COEFF = 0.044715f` of `gelu_naive`, read as the decimal. -/
def COEFF {α : Type u} [Field α] : α := 0.044715

/-- What the loop body of `gelu_naive` computes from `x = data[i]` and stores back:
`x3 = x * x * x; inner = SQRT_2_OVER_PI * (x + COEFF * x3); tanh_val = tanh(inner);`
`0.5f * x * (1.0f + tanh_val)`, with `std::tanh` passed as `tanh`. -/
def gelu_elem {α : Type u} [Field α] (tanh : α → α) (x : α) : α :=
  let x3 := x * x * x
  let inner := SQRT_2_OVER_PI * (x + COEFF * x3)
  let tanh_val := tanh inner
  0.5 * x * (1 + tanh_val)

/-- Body of the loop of `gelu_naive`: `x = data[i]; ...; data[i] = 0.5f * x * (1.0f + tanh_val);`
then `i++`. -/
def gelu_step {α : Type u} [Field α] (tanh : α → α) (s : Int × List α) :
    Option (Int × List α) :=
  (rd s.2 s.1).bind fun x =>
    (wr s.2 s.1 (gelu_elem tanh x)).bind fun d =>
      some (s.1 + 1, d)

/-- The function `gelu_naive(float* data, int n)`, with the arithmetic read exactly. -/
def gelu_naive {α : Type u} [Field α] (tanh : α → α) (data : List α) (n : Int) :
    Option (List α) :=
  (loop (fun s : Int × List α => decide (s.1 < n)) (gelu_step tanh) (n.toNat + 1) (0, data)).map
    Prod.snd

/-- The underflow of `std::exp` on `float`: for an argument below -104 the exponential is
below `2^-150`, half the smallest positive `float`, and the result is exactly `0.0f`;
elsewhere `e` gives the value. -/
def exp_flush {α : Type u} [LinearOrderedField α] (e : α → α) (x : α) : α :=
  if x < -104 then 0 else e x

/-! ## Definitions used by the statements and proofs -/

/-- The common shape of the `j` loop body of the two matrix kernels, with the subscript
expression `a * N + c` passed as `sub a N c` and the accumulation `C[..] += val_A * b` passed
as `acc c val_A b`; `matmul_j_step` and `matmul_int8_j_step` are its two instances. -/
def mm_j_step {α : Type u} (sub : Int → Int → Int → Option Int) (acc : α → α → α → Option α)
    (B : List α) (N i k : Int) (val_A : α) (s : Int × List α) : Option (Int × List α) :=
  (sub k N s.1).bind fun kj =>
    (rd B kj).bind fun b =>
      (sub i N s.1).bind fun ij =>
        (rd s.2 ij).bind fun c =>
          (acc c val_A b).bind fun v =>
            (wr s.2 ij v).bind fun C =>
              some (s.1 + 1, C)

/-- The common shape of the `k` loop body of the two matrix kernels. -/
def mm_k_step {α : Type u} (sub : Int → Int → Int → Option Int) (acc : α → α → α → Option α)
    (A B : List α) (N i : Int) (s : Int × List α) : Option (Int × List α) :=
  (sub i N s.1).bind fun ik =>
    (rd A ik).bind fun val_A =>
      (loop (fun t : Int × List α => decide (t.1 < N)) (mm_j_step sub acc B N i s.1 val_A)
          (N.toNat + 1) (0, s.2)).bind fun t =>
        some (s.1 + 1, t.2)

/-- The common shape of the `i` loop body of the two matrix kernels. -/
def mm_i_step {α : Type u} (sub : Int → Int → Int → Option Int) (acc : α → α → α → Option α)
    (A B : List α) (N : Int) (s : Int × List α) : Option (Int × List α) :=
  (loop (fun t : Int × List α => decide (t.1 < N)) (mm_k_step sub acc A B N s.1)
      (N.toNat + 1) (0, s.2)).bind fun t =>
    some (s.1 + 1, t.2)

/-- The common shape of the two matrix kernels. -/
def mm {α : Type u} (sub : Int → Int → Int → Option Int) (acc : α → α → α → Option α)
    (A B C : List α) (N : Int) : Option (List α) :=
  (loop (fun s : Int × List α => decide (s.1 < N)) (mm_i_step sub acc A B N)
      (N.toNat + 1) (0, C)).map Prod.snd

/-- The textbook value of the accumulator `C[i*N+j]` once the products for the first `k`
reduction indices are added: `C0[i*N+j] + Σ_{t<k} A[i*N+t] * B[t*N+j]`. -/
def matmul_cell {α : Type u} [Semiring α] (A B C0 : List α) (N i j k : Nat) : α :=
  C0.getD (i * N + j) 0 + ∑ t in Finset.range k, A.getD (i * N + t) 0 * B.getD (t * N + j) 0

/-- The number of products already added into `C[r*N+c]` when the loops of a matrix kernel
stand at row `i`, reduction index `k` and column `j`. -/
def mm_count (N i k j r c : Nat) : Nat :=
  if r < i then N else if r = i then (if c < j then k + 1 else k) else 0

/-- The state of the accumulator buffer when the loops of a matrix kernel stand at row `i`,
reduction index `k` and column `j`: every cell holds its textbook prefix sum. -/
def mm_inv {α : Type u} [Semiring α] (A B C0 : List α) (N i k j : Nat) (buf : List α) : Prop :=
  buf.length = N * N ∧
    ∀ r c : Nat, r < N → c < N →
      buf[r * N + c]? = some (matmul_cell A B C0 N r c (mm_count N i k j r c))


/-! # Theorems -/

/-! ## Loops and buffers -/

theorem loop_spec {σ : Type u} (cond : σ → Bool) (body : σ → Option σ) (Inv : σ → Prop)
    (m : σ → Nat)
    (hstep : ∀ s, Inv s → cond s = true → ∃ s', body s = some s' ∧ Inv s' ∧ m s' < m s) :
    ∀ (fuel : Nat) (s : σ), Inv s → m s < fuel →
      ∃ s', loop cond body fuel s = some s' ∧ Inv s' ∧ cond s' = false := by
  intro fuel
  induction fuel with
  | zero => intro s _ h; omega
  | succ k ih =>
    intro s hs hm
    by_cases hc : cond s = true
    · obtain ⟨s', hb, hi, hlt⟩ := hstep s hs hc
      obtain ⟨s'', hl, hi', hc'⟩ := ih s' hi (by omega)
      exact ⟨s'', by simp [loop, hc, hb, hl], hi', hc'⟩
    · exact ⟨s, by simp [loop, hc], hs, by simpa using hc⟩

theorem rd_nat {α : Type u} (buf : List α) (j : Nat) : rd buf (j : Int) = buf[j]? := by
  simp [rd]

theorem wr_nat {α : Type u} (buf : List α) (j : Nat) (v : α) (h : j < buf.length) :
    wr buf (j : Int) v = some (buf.set j v) := by
  simp [wr, h]

theorem getElem?_set_map {α : Type u} (buf : List α) (k j : Nat) (v : α) (h : k < buf.length) :
    (buf.set k v)[j]? = if j = k then some v else buf[j]? := by
  rw [List.getElem?_set]
  by_cases hjk : k = j
  · subst hjk; simp [h]
  · have : ¬ j = k := fun e => hjk e.symm
    simp [hjk, this]

/-! ## The rectifier -/

section Relu
variable {α : Type u} [Zero α] [LT α] [DecidableRel (α := α) (· < ·)]

/-- The scalar rectifier loop, started at index `i0` on `buf0`, ends at index `max i0 n`
having rectified exactly the elements `i0 ≤ j < n`. -/
theorem relu_loop_run (n : Int) (i0 : Nat) (buf0 : List α) (hn : n ≤ (buf0.length : Int))
    (fuel : Nat) (hf : (n - i0).toNat < fuel) :
    ∃ s', loop (fun s : Int × List α => decide (s.1 < n)) relu_step fuel ((i0 : Int), buf0)
        = some s' ∧ s'.2.length = buf0.length ∧
      ∀ j : Nat, s'.2[j]? = (buf0[j]?).map fun x => if i0 ≤ j ∧ (j : Int) < n then relu x else x := by
  obtain ⟨s', hrun, ⟨k, hk, hik, hkn, hlen, hpt⟩, hc⟩ :=
    loop_spec (fun s : Int × List α => decide (s.1 < n)) relu_step
      (fun s => ∃ k : Nat, s.1 = (k : Int) ∧ i0 ≤ k ∧ ((k : Int) ≤ n ∨ k = i0) ∧
        s.2.length = buf0.length ∧
        ∀ j : Nat, s.2[j]? = (buf0[j]?).map fun x => if i0 ≤ j ∧ j < k then relu x else x)
      (fun s => (n - s.1).toNat)
      (by
        rintro ⟨i, buf⟩ ⟨k, hk, hik, hkn, hlen, hpt⟩ hc
        simp only at hk hlen hpt
        subst hk
        have hlt : (k : Int) < n := by simpa using hc
        have hkl : k < buf.length := by omega
        have hkl0 : k < buf0.length := by omega
        have hbk : buf[k]? = some buf0[k] := by
          rw [hpt k, List.getElem?_eq_getElem hkl0]; simp
        refine ⟨((k : Int) + 1, if buf0[k] < 0 then buf.set k 0 else buf), ?_, ?_, ?_⟩
        · simp only [relu_step, rd_nat, hbk, Option.some_bind]
          by_cases hx : buf0[k] < 0
          · simp [hx, wr_nat buf k 0 hkl]
          · simp [hx]
        · refine ⟨k + 1, by simp, by omega, by omega, ?_, ?_⟩
          · by_cases hx : buf0[k] < 0 <;> simp [hx, hlen]
          · intro j
            by_cases hjk : j = k
            · subst hjk
              by_cases hx : buf0[j] < 0
              · simp [hx, getElem?_set_map, hkl, List.getElem?_eq_getElem hkl0, hik, relu]
              · simp [hx, hbk, List.getElem?_eq_getElem hkl0, hik, relu]
            · have e : (i0 ≤ j ∧ j < k + 1) ↔ (i0 ≤ j ∧ j < k) := by omega
              by_cases hx : buf0[k] < 0
              · simp only [hx, if_true, getElem?_set_map buf k j 0 hkl, if_neg hjk, hpt j, e]
              · simp only [hx, if_false, hpt j, e]
        · simp only; omega)
      fuel ((i0 : Int), buf0)
      ⟨i0, rfl, le_refl _, Or.inr rfl, rfl, fun j => by
        have : ¬ (i0 ≤ j ∧ j < i0) := by omega
        simp [this]⟩
      (by simpa using hf)
  refine ⟨s', hrun, hlen, fun j => ?_⟩
  have hge : ¬ (s'.1 < n) := by simpa using hc
  rw [hk] at hge
  have e : (i0 ≤ j ∧ j < k) ↔ (i0 ≤ j ∧ (j : Int) < n) := by omega
  simp only [hpt j, e]

end Relu

theorem storeu_getElem? {α : Type u} (buf v : List α) (k j : Nat) (h : k + 8 ≤ buf.length)
    (hv : v.length = 8) :
    (buf.take k ++ v.take 8 ++ buf.drop (k + 8))[j]? =
      if j < k then buf[j]? else if j < k + 8 then v[j - k]? else buf[j]? := by
  have hk : (buf.take k).length = k := by simp; omega
  split_ifs with h1 h2
  · rw [List.append_assoc, List.getElem?_append_left (by omega)]
    simp [List.getElem?_take, h1]
  · rw [List.getElem?_append_left (by simp; omega), List.getElem?_append_right (by omega)]
    simp [hk, List.getElem?_take]
    omega
  · rw [List.getElem?_append_right (by simp; omega)]
    simp [hv]
    congr 1
    omega

theorem lanes_getElem? {α : Type u} (f : α → α → α) (z : α) (buf : List α) (k t : Nat) (ht : t < 8) :
    (List.zipWith f ((buf.drop k).take 8) (List.replicate 8 z))[t]? =
      (buf[k + t]?).map fun x => f x z := by
  rw [List.getElem?_zipWith, List.getElem?_replicate, List.getElem?_take, if_pos ht, if_pos ht,
    List.getElem?_drop]
  cases buf[k + t]? <;> rfl

theorem lanes_length {α : Type u} (f : α → α → α) (z : α) (buf : List α) (k : Nat)
    (h : k + 8 ≤ buf.length) :
    (List.zipWith f ((buf.drop k).take 8) (List.replicate 8 z)).length = 8 := by
  simp only [List.length_zipWith, List.length_take, List.length_drop, List.length_replicate]
  omega


section ReluKernels
variable {α : Type u} [Zero α] [LT α] [DecidableRel (α := α) (· < ·)]

/-- Closed form of `relu_naive` on a buffer holding at least `n` elements: it returns, the
length is kept, and exactly the elements below `n` are rectified. -/
theorem relu_naive_run (data : List α) (n : Int) (hn : n ≤ (data.length : Int)) :
    ∃ out, relu_naive data n = some out ∧ out.length = data.length ∧
      ∀ j : Nat, out[j]? = (data[j]?).map fun x => if (j : Int) < n then relu x else x := by
  obtain ⟨s', hrun, hlen, hpt⟩ :=
    relu_loop_run n 0 data hn (n.toNat + 1) (by simp)
  refine ⟨s'.2, ?_, hlen, fun j => ?_⟩
  · simp only [relu_naive]
    simp only [Nat.cast_zero] at hrun
    rw [hrun]; rfl
  · rw [hpt j]; simp

/-- The main loop of `relu_avx` returns with `i = 8 * (n / 8)`: every full chunk below `n`
has gone through `max_ps` and nothing else was touched. -/
theorem relu_avx_main_run (data : List α) (n : Int) (hn : n ≤ (data.length : Int))
    (fuel : Nat) (hf : n.toNat < fuel) :
    ∃ s', loop (fun s : Int × List α => decide (s.1 ≤ n - 8)) relu_avx_step fuel (0, data)
        = some s' ∧ s'.1 = ((8 * (n.toNat / 8) : Nat) : Int) ∧ s'.2.length = data.length ∧
      ∀ j : Nat, s'.2[j]? =
        (data[j]?).map fun x => if j < 8 * (n.toNat / 8) then max_ps x 0 else x := by
  obtain ⟨s', hrun, ⟨c, hc8, hcn, hlen, hpt⟩, hc⟩ :=
    loop_spec (fun s : Int × List α => decide (s.1 ≤ n - 8)) relu_avx_step
      (fun s => ∃ c : Nat, s.1 = ((8 * c : Nat) : Int) ∧ (((8 * c : Nat) : Int) ≤ n ∨ c = 0) ∧
        s.2.length = data.length ∧
        ∀ j : Nat, s.2[j]? = (data[j]?).map fun x => if j < 8 * c then max_ps x 0 else x)
      (fun s => (n - s.1).toNat)
      (by
        rintro ⟨i, buf⟩ ⟨c, hc8, hcn, hlen, hpt⟩ hc
        simp only at hc8 hlen hpt
        subst hc8
        have hle : ((8 * c : Nat) : Int) ≤ n - 8 := by simpa using hc
        have hb : 8 * c + 8 ≤ buf.length := by omega
        refine ⟨(((8 * c : Nat) : Int) + 8, buf.take (8 * c) ++
          (List.zipWith max_ps ((buf.drop (8 * c)).take 8) (List.replicate 8 0)).take 8 ++
            buf.drop (8 * c + 8)), ?_, ?_, ?_⟩
        · simp only [relu_avx_step, loadu_ps, storeu_ps, Int.toNat_ofNat]
          simp [hb]
        · refine ⟨c + 1, by push_cast; ring, Or.inl (by push_cast at hle ⊢; omega), ?_, ?_⟩
          · have := lanes_length max_ps (0 : α) buf (8 * c) hb
            simp only [List.length_append, List.length_take, List.length_drop, this]
            omega
          · intro j
            rw [storeu_getElem? buf _ (8 * c) j hb (lanes_length max_ps 0 buf (8 * c) hb)]
            by_cases h1 : j < 8 * c
            · rw [if_pos h1, hpt j]
              have : j < 8 * (c + 1) := by omega
              simp only [h1, this, if_true]
            · rw [if_neg h1]
              by_cases h2 : j < 8 * c + 8
              · rw [if_pos h2, lanes_getElem? max_ps 0 buf (8 * c) (j - 8 * c) (by omega)]
                have e : 8 * c + (j - 8 * c) = j := by omega
                rw [e, hpt j]
                have : j < 8 * (c + 1) := by omega
                simp [h1, this]
              · rw [if_neg h2, hpt j]
                have : ¬ j < 8 * (c + 1) := by omega
                simp only [h1, this, if_false]
        · simp only; omega)
      fuel (0, data)
      ⟨0, rfl, Or.inr rfl, rfl, fun j => by simp⟩
      (by simpa using hf)
  have hex : ¬ (s'.1 ≤ n - 8) := by simpa using hc
  rw [hc8] at hex
  have hcc : 8 * c = 8 * (n.toNat / 8) := by omega
  refine ⟨s', hrun, by rw [hc8, hcc], hlen, fun j => ?_⟩
  rw [hpt j, hcc]

/-- Closed form of `relu_avx` on a buffer holding at least `n` elements: the elements of the
full chunks, below `8 * (n / 8)`, go through `max_ps` once, the remaining elements below `n`
go through the scalar body once, and the rest is untouched. -/
theorem relu_avx_run (data : List α) (n : Int) (hn : n ≤ (data.length : Int)) :
    ∃ out, relu_avx data n = some out ∧ out.length = data.length ∧
      ∀ j : Nat, out[j]? = (data[j]?).map fun x =>
        if j < 8 * (n.toNat / 8) then max_ps x 0 else if (j : Int) < n then relu x else x := by
  obtain ⟨s1, hrun1, hi1, hlen1, hpt1⟩ := relu_avx_main_run data n hn (n.toNat + 1) (by omega)
  obtain ⟨s2, hrun2, hlen2, hpt2⟩ :=
    relu_loop_run n (8 * (n.toNat / 8)) s1.2 (by omega) (n.toNat + 1) (by omega)
  refine ⟨s2.2, ?_, by omega, fun j => ?_⟩
  · have e : s1 = (((8 * (n.toNat / 8) : Nat) : Int), s1.2) := by rw [← hi1]
    simp only [relu_avx, hrun1, Option.some_bind]
    rw [e, hrun2]; rfl
  · rw [hpt2 j, hpt1 j]
    cases data[j]? with
    | none => rfl
    | some x =>
      simp only [Option.map_some']
      by_cases h1 : j < 8 * (n.toNat / 8)
      · have : ¬ (8 * (n.toNat / 8) ≤ j ∧ (j : Int) < n) := by omega
        simp [h1, this]
      · have : (8 * (n.toNat / 8) ≤ j ∧ (j : Int) < n) ↔ (j : Int) < n := by omega
        simp [h1, this]

end ReluKernels

theorem max_ps_zero_eq_relu {α : Type u} [LinearOrder α] [Zero α] (x : α) :
    max_ps x 0 = relu x := by
  unfold max_ps relu
  rcases lt_trichotomy x 0 with h | h | h
  · simp [h, not_lt_of_lt h]
  · simp [h]
  · simp [h, not_lt_of_lt h]

/-- With the operands of `max_ps` in the other order, zero first, a lane is exactly the scalar
body, for every element type. -/
theorem max_ps_swapped_eq_relu {α : Type u} [Zero α] [LT α] [DecidableRel (α := α) (· < ·)]
    (x : α) : max_ps 0 x = relu x := rfl

theorem relu_eq_max {α : Type u} [LinearOrder α] [Zero α] (x : α) : relu x = max x 0 := by
  unfold relu
  by_cases h : x < 0
  · simp [h, max_eq_right (le_of_lt h)]
  · simp [h, max_eq_left (not_lt.mp h)]

/-- On a linearly ordered element type (no NaN, a single zero) the two rectifiers agree for
every `n` up to the buffer length, whatever the remainder `n % 8`. -/
theorem relu_avx_eq_relu_naive_of_linearOrder {α : Type u} [LinearOrder α] [Zero α]
    (data : List α) (n : Int) (hn : n ≤ (data.length : Int)) :
    relu_avx data n = relu_naive data n := by
  obtain ⟨o1, h1, _, p1⟩ := relu_avx_run data n hn
  obtain ⟨o2, h2, _, p2⟩ := relu_naive_run data n hn
  rw [h1, h2]
  congr 1
  apply List.ext_getElem?
  intro j
  rw [p1 j, p2 j]
  cases data[j]? with
  | none => rfl
  | some x =>
    simp only [Option.map_some', max_ps_zero_eq_relu]
    by_cases hj : j < 8 * (n.toNat / 8)
    · have : (j : Int) < n := by omega
      simp [hj, this]
    · simp [hj]

theorem f32_max_ps_zero_eq_relu (x : F32) (h1 : x ≠ F32.nan) (h2 : x ≠ F32.negZero) :
    max_ps x 0 = relu x := by
  cases x with
  | nan => exact absurd rfl h1
  | negInf => decide
  | posInf => decide
  | negZero => exact absurd rfl h2
  | fin q =>
    have hz : (0 : F32) = F32.fin 0 := rfl
    have e1 : ((0 : F32) < F32.fin q) = (0 < q) := by
      rw [hz]; simp [LT.lt, F32.lt]
    have e2 : (F32.fin q < (0 : F32)) = (q < 0) := by
      rw [hz]; simp [LT.lt, F32.lt]
    unfold max_ps relu
    simp only [e1, e2]
    rcases lt_trichotomy q 0 with h | h | h
    · simp [h, not_lt_of_lt h]
    · subst h; simp [hz]
    · simp [h, not_lt_of_lt h]

/-- On `float` buffers in which no element is a NaN or a negative zero the two rectifiers
agree for every `n` up to the buffer length: the chunk and remainder loops of `relu_avx`
cover every index below `n` exactly once. -/
theorem relu_avx_eq_relu_naive_F32 (data : List F32) (n : Int) (hn : n ≤ (data.length : Int))
    (hd : ∀ x ∈ data, x ≠ F32.nan ∧ x ≠ F32.negZero) :
    relu_avx data n = relu_naive data n := by
  obtain ⟨o1, h1, _, p1⟩ := relu_avx_run data n hn
  obtain ⟨o2, h2, _, p2⟩ := relu_naive_run data n hn
  rw [h1, h2]
  congr 1
  apply List.ext_getElem?
  intro j
  rw [p1 j, p2 j]
  cases hj : data[j]? with
  | none => rfl
  | some x =>
    have hx := hd x (List.getElem?_mem hj)
    simp only [Option.map_some', f32_max_ps_zero_eq_relu x hx.1 hx.2]
    by_cases hj : j < 8 * (n.toNat / 8)
    · have : (j : Int) < n := by omega
      simp [hj, this]
    · simp [hj]

/-! ## Claims C1 and C2 -/

/-- C1, evaluated where it fails: on the `float` buffer of eight NaN with `n = 8`,
`relu_naive` leaves the eight NaN (`NaN < 0` is false) while `relu_avx` writes eight zeros
(`_mm256_max_ps` returns its second operand when the first is a NaN), so the two buffers
differ; with nine NaN and `n = 9` the cleanup loop of `relu_avx` itself keeps the ninth NaN;
and a negative zero is kept by `relu_naive` and replaced by positive zero by `relu_avx`. -/
theorem relu_avx_ne_relu_naive_nan :
    relu_naive (List.replicate 8 F32.nan) 8 = some (List.replicate 8 F32.nan) ∧
    relu_avx (List.replicate 8 F32.nan) 8 = some (List.replicate 8 (F32.fin 0)) ∧
    relu_avx (List.replicate 8 F32.nan) 8 ≠ relu_naive (List.replicate 8 F32.nan) 8 ∧
    relu_avx (List.replicate 9 F32.nan) 9 = some (List.replicate 8 (F32.fin 0) ++ [F32.nan]) ∧
    relu_naive (List.replicate 8 F32.negZero) 8 = some (List.replicate 8 F32.negZero) ∧
    relu_avx (List.replicate 8 F32.negZero) 8 = some (List.replicate 8 (F32.fin 0)) := by
  decide

/-- C2: on a buffer `x` of length `n`, `relu_naive` returns a buffer of the same length
whose element at every index `i < n` is `max x[i] 0`: it is 0 where `x[i]` is negative and
`x[i]` itself where `x[i]` is non-negative. -/
theorem relu_naive_spec {α : Type u} [LinearOrder α] [Zero α] (x : List α) (n : Int)
    (hn : n = (x.length : Int)) :
    ∃ out, relu_naive x n = some out ∧ out.length = x.length ∧
      ∀ (i : Nat) (hi : i < x.length),
        out[i]? = some (max x[i] 0) ∧ (x[i] < 0 → out[i]? = some 0) ∧
          (0 ≤ x[i] → out[i]? = some x[i]) := by
  obtain ⟨out, hrun, hlen, hpt⟩ := relu_naive_run x n (le_of_eq hn)
  refine ⟨out, hrun, hlen, fun i hi => ?_⟩
  have hin : (i : Int) < n := by omega
  have e : out[i]? = some (max x[i] 0) := by
    rw [hpt i, List.getElem?_eq_getElem hi]
    simp [hin, relu_eq_max]
  refine ⟨e, fun hneg => ?_, fun hpos => ?_⟩
  · rw [e, max_eq_right (le_of_lt hneg)]
  · rw [e, max_eq_left hpos]

theorem relu_naive_spec_witness :
    ∃ out, relu_naive ([-3, 0, 5 / 2] : List ℚ) 3 = some out ∧
      out.length = ([-3, 0, 5 / 2] : List ℚ).length ∧
      ∀ (i : Nat) (hi : i < ([-3, 0, 5 / 2] : List ℚ).length),
        out[i]? = some (max ([-3, 0, 5 / 2] : List ℚ)[i] 0) ∧
          (([-3, 0, 5 / 2] : List ℚ)[i] < 0 → out[i]? = some 0) ∧
          (0 ≤ ([-3, 0, 5 / 2] : List ℚ)[i] → out[i]? = some ([-3, 0, 5 / 2] : List ℚ)[i]) :=
  relu_naive_spec ([-3, 0, 5 / 2] : List ℚ) 3 (by simp)

/-! ## The maximum and the stable softmax -/

/-- The function `find_max` on a buffer holding at least `n ≥ 1` elements returns a value that
is one of the first `n` elements and bounds all of them. -/
theorem find_max_run {α : Type u} [LinearOrder α] (data : List α) (n : Int) (h1 : 1 ≤ n)
    (hn : n ≤ (data.length : Int)) :
    ∃ m, find_max data n = some m ∧ (∃ j : Nat, (j : Int) < n ∧ data[j]? = some m) ∧
      ∀ (j : Nat) (x : α), (j : Int) < n → data[j]? = some x → x ≤ m := by
  have h0 : 0 < data.length := by omega
  obtain ⟨s', hrun, ⟨k, hk, hk1, hkn, hex, hub⟩, hc⟩ :=
    loop_spec (fun s : Int × α => decide (s.1 < n)) (find_max_step data)
      (fun s => ∃ k : Nat, s.1 = (k : Int) ∧ 1 ≤ k ∧ (k : Int) ≤ n ∧
        (∃ j : Nat, j < k ∧ data[j]? = some s.2) ∧
        ∀ (j : Nat) (x : α), j < k → data[j]? = some x → x ≤ s.2)
      (fun s => (n - s.1).toNat)
      (by
        rintro ⟨i, m⟩ ⟨k, hk, hk1, hkn, ⟨j0, hj0, hm⟩, hub⟩ hc
        simp only at hk hm hub
        subst hk
        have hlt : (k : Int) < n := by simpa using hc
        have hkl : k < data.length := by omega
        refine ⟨((k : Int) + 1, if m < data[k] then data[k] else m), ?_, ?_, ?_⟩
        · simp [find_max_step, rd_nat, List.getElem?_eq_getElem hkl]
        · refine ⟨k + 1, by simp, by omega, by omega, ?_, ?_⟩
          · by_cases hx : m < data[k]
            · exact ⟨k, by omega, by simp [hx, List.getElem?_eq_getElem hkl]⟩
            · exact ⟨j0, by omega, by simp [hx, hm]⟩
          · intro j x hj hjx
            by_cases hjk : j = k
            · subst hjk
              rw [List.getElem?_eq_getElem hkl] at hjx
              cases hjx
              by_cases hx : m < data[j]
              · simp [hx]
              · simp [hx, not_lt.mp hx]
            · have hle := hub j x (by omega) hjx
              by_cases hx : m < data[k]
              · simp only [hx, if_true]; exact le_trans hle (le_of_lt hx)
              · simp only [hx, if_false]; exact hle
        · simp only; omega)
      (n.toNat + 1) (1, data[0])
      ⟨1, rfl, le_refl _, by simpa using h1, ⟨0, by omega, by simp [List.getElem?_eq_getElem h0]⟩,
        fun j x hj hjx => by
          have : j = 0 := by omega
          subst this
          rw [List.getElem?_eq_getElem h0] at hjx
          cases hjx
          exact le_refl _⟩
      (by simp only; omega)
  have hge : ¬ (s'.1 < n) := by simpa using hc
  rw [hk] at hge
  obtain ⟨j0, hj0, hm⟩ := hex
  refine ⟨s'.2, ?_, ⟨j0, by omega, hm⟩, fun j x hj hjx => hub j x (by omega) hjx⟩
  have e0 : rd data 0 = some data[0] := by
    have := rd_nat data 0
    simpa [List.getElem?_eq_getElem h0] using this
  simp only [find_max, e0, Option.some_bind, hrun, Option.map_some']

/-- The value returned by `find_max` is determined by the two properties of `find_max_run`. -/
theorem find_max_unique {α : Type u} [LinearOrder α] (data : List α) (n : Int) (m m' : α)
    (hm : (∃ j : Nat, (j : Int) < n ∧ data[j]? = some m) ∧
      ∀ (j : Nat) (x : α), (j : Int) < n → data[j]? = some x → x ≤ m)
    (hm' : (∃ j : Nat, (j : Int) < n ∧ data[j]? = some m') ∧
      ∀ (j : Nat) (x : α), (j : Int) < n → data[j]? = some x → x ≤ m') :
    m = m' := by
  obtain ⟨⟨j, hj, hjm⟩, hub⟩ := hm
  obtain ⟨⟨j', hj', hjm'⟩, hub'⟩ := hm'
  exact le_antisymm (hub' j m hj hjm) (hub j' m' hj' hjm')

theorem find_max_shift {α : Type u} [LinearOrderedField α] (data : List α) (n : Int) (c : α)
    (h1 : 1 ≤ n) (hn : n ≤ (data.length : Int)) :
    ∃ m, find_max data n = some m ∧ find_max (data.map (· + c)) n = some (m + c) := by
  obtain ⟨m, hrun, ⟨j, hj, hjm⟩, hub⟩ := find_max_run data n h1 hn
  obtain ⟨m', hrun', hm'⟩ := find_max_run (data.map (· + c)) n h1 (by simpa using hn)
  refine ⟨m, hrun, ?_⟩
  rw [hrun']
  congr 1
  apply find_max_unique (data.map (· + c)) n m' (m + c) hm'
  refine ⟨⟨j, hj, by simp [hjm]⟩, fun i x hi hix => ?_⟩
  rw [List.getElem?_map] at hix
  cases hd : data[i]? with
  | none => simp [hd] at hix
  | some y =>
    simp [hd] at hix
    rw [← hix]
    exact add_le_add_right (hub i y hi hd) c

theorem sum_take_succ_map {α : Type u} [AddMonoid α] (e : α → α) (l : List α) (k : Nat)
    (hk : k < l.length) :
    ((l.take (k + 1)).map e).sum = ((l.take k).map e).sum + e l[k] := by
  rw [List.take_succ, List.getElem?_eq_getElem hk, List.map_append, List.sum_append]
  simp [Option.toList]

/-- The first loop of `softmax_naive` returns with every `output[j]`, `j < n`, holding
`exp (input[j] - max_val)` and `sum` holding their sum. -/
theorem softmax_exp_run {α : Type u} [LinearOrderedField α] (exp : α → α)
    (input output : List α) (max_val : α) (n : Int) (h0 : 0 ≤ n)
    (hi : n ≤ (input.length : Int)) (ho : n ≤ (output.length : Int)) :
    ∃ s', loop (fun s : Int × List α × α => decide (s.1 < n))
        (softmax_exp_step exp input max_val) (n.toNat + 1) (0, output, 0) = some s' ∧
      s'.2.1.length = output.length ∧
      (∀ j : Nat, s'.2.1[j]? =
        if (j : Int) < n then (input[j]?).map fun x => exp (x - max_val) else output[j]?) ∧
      s'.2.2 = ((input.take n.toNat).map fun x => exp (x - max_val)).sum := by
  obtain ⟨s', hrun, ⟨k, hk, hkn, hlen, hpt, hsum⟩, hc⟩ :=
    loop_spec (fun s : Int × List α × α => decide (s.1 < n))
      (softmax_exp_step exp input max_val)
      (fun s => ∃ k : Nat, s.1 = (k : Int) ∧ (k : Int) ≤ n ∧
        s.2.1.length = output.length ∧
        (∀ j : Nat, s.2.1[j]? =
          if j < k then (input[j]?).map fun x => exp (x - max_val) else output[j]?) ∧
        s.2.2 = ((input.take k).map fun x => exp (x - max_val)).sum)
      (fun s => (n - s.1).toNat)
      (by
        rintro ⟨i, out, sum⟩ ⟨k, hk, hkn, hlen, hpt, hsum⟩ hc
        simp only at hk hlen hpt hsum
        subst hk
        have hlt : (k : Int) < n := by simpa using hc
        have hki : k < input.length := by omega
        have hko : k < out.length := by omega
        refine ⟨((k : Int) + 1, out.set k (exp (input[k] - max_val)),
          sum + exp (input[k] - max_val)), ?_, ?_, ?_⟩
        · simp [softmax_exp_step, rd_nat, wr_nat, List.getElem?_eq_getElem hki, hko]
        · refine ⟨k + 1, by simp, by omega, by simp [hlen], fun j => ?_, ?_⟩
          · simp only [getElem?_set_map out k j _ hko]
            by_cases hjk : j = k
            · subst hjk
              simp [List.getElem?_eq_getElem hki]
            · have e : j < k + 1 ↔ j < k := by omega
              simp only [hjk, if_false, hpt j, e]
          · simp only [hsum]
            rw [sum_take_succ_map (fun x => exp (x - max_val)) input k hki]
        · simp only; omega)
      (n.toNat + 1) (0, output, 0)
      ⟨0, rfl, by simpa using h0, rfl, fun j => by simp, by simp⟩
      (by simp only; omega)
  have hge : ¬ (s'.1 < n) := by simpa using hc
  rw [hk] at hge
  have hkn' : k = n.toNat := by omega
  refine ⟨s', hrun, hlen, fun j => ?_, by rw [hsum, hkn']⟩
  have e : j < k ↔ (j : Int) < n := by omega
  simp only [hpt j, e]

/-- The second loop of `softmax_naive` divides every `output[j]`, `j < n`, by `sum`. -/
theorem softmax_div_run {α : Type u} [LinearOrderedField α] (sum : α) (out1 : List α)
    (n : Int) (h0 : 0 ≤ n) (ho : n ≤ (out1.length : Int)) :
    ∃ s', loop (fun s : Int × List α => decide (s.1 < n)) (softmax_div_step sum)
        (n.toNat + 1) (0, out1) = some s' ∧ s'.2.length = out1.length ∧
      ∀ j : Nat, s'.2[j]? = (out1[j]?).map fun y => if (j : Int) < n then y / sum else y := by
  obtain ⟨s', hrun, ⟨k, hk, hkn, hlen, hpt⟩, hc⟩ :=
    loop_spec (fun s : Int × List α => decide (s.1 < n)) (softmax_div_step sum)
      (fun s => ∃ k : Nat, s.1 = (k : Int) ∧ (k : Int) ≤ n ∧ s.2.length = out1.length ∧
        ∀ j : Nat, s.2[j]? = (out1[j]?).map fun y => if j < k then y / sum else y)
      (fun s => (n - s.1).toNat)
      (by
        rintro ⟨i, out⟩ ⟨k, hk, hkn, hlen, hpt⟩ hc
        simp only at hk hlen hpt
        subst hk
        have hlt : (k : Int) < n := by simpa using hc
        have hko : k < out.length := by omega
        have hk1 : k < out1.length := by omega
        have hbk : out[k]? = some out1[k] := by
          rw [hpt k, List.getElem?_eq_getElem hk1]; simp
        refine ⟨((k : Int) + 1, out.set k (out1[k] / sum)), ?_, ?_, ?_⟩
        · simp [softmax_div_step, rd_nat, wr_nat, hbk, hko]
        · refine ⟨k + 1, by simp, by omega, by simp [hlen], fun j => ?_⟩
          simp only [getElem?_set_map out k j _ hko]
          by_cases hjk : j = k
          · subst hjk
            simp [List.getElem?_eq_getElem hk1]
          · have e : j < k + 1 ↔ j < k := by omega
            simp only [hjk, if_false, hpt j, e]
        · simp only; omega)
      (n.toNat + 1) (0, out1)
      ⟨0, rfl, by simpa using h0, rfl, fun j => by simp⟩
      (by simp only; omega)
  have hge : ¬ (s'.1 < n) := by simpa using hc
  rw [hk] at hge
  refine ⟨s', hrun, hlen, fun j => ?_⟩
  have e : j < k ↔ (j : Int) < n := by omega
  simp only [hpt j, e]

/-- Closed form of `softmax_naive` on a non-empty input of length `n` and an output buffer
of the same length: it returns, and the output is `exp (x - max) / sum` for every input
element `x`, where `max` is the result of `find_max` and `sum` the sum of the exponentials. -/
theorem softmax_naive_run {α : Type u} [LinearOrderedField α] (exp : α → α)
    (input output : List α) (n : Int) (h1 : 1 ≤ n) (hi : n = (input.length : Int))
    (ho : output.length = input.length) :
    ∃ m, find_max input n = some m ∧
      softmax_naive exp input output n = some (input.map fun x =>
        exp (x - m) / (input.map fun y => exp (y - m)).sum) := by
  obtain ⟨m, hmax, _⟩ := find_max_run input n h1 (le_of_eq hi)
  obtain ⟨s1, hrun1, hlen1, hpt1, hsum1⟩ :=
    softmax_exp_run exp input output m n (by omega) (le_of_eq hi) (by omega)
  obtain ⟨s2, hrun2, hlen2, hpt2⟩ :=
    softmax_div_run s1.2.2 s1.2.1 n (by omega) (by omega)
  refine ⟨m, hmax, ?_⟩
  simp only [softmax_naive, hmax, Option.some_bind, hrun1, hrun2, Option.map_some']
  congr 1
  apply List.ext_getElem?
  intro j
  have hT : input.take n.toNat = input := by
    apply List.take_of_length_le; omega
  rw [hpt2 j, hpt1 j, hsum1, hT, List.getElem?_map]
  by_cases hj : (j : Int) < n
  · simp only [hj, if_true, Option.map_map]
    rfl
  · have hj1 : input.length ≤ j := by omega
    have hj2 : output.length ≤ j := by omega
    simp [hj, List.getElem?_eq_none hj1, List.getElem?_eq_none hj2]

theorem sum_map_div_const {α : Type u} [Field α] (f : α → α) (s : α) (l : List α) :
    (l.map fun x => f x / s).sum = (l.map f).sum / s := by
  induction l with
  | nil => simp
  | cons a t ih => simp only [List.map_cons, List.sum_cons, ih, add_div]

theorem sum_map_pos {α : Type u} [LinearOrderedField α] (f : α → α) (hf : ∀ x, 0 < f x)
    (l : List α) (hl : l ≠ []) : 0 < (l.map f).sum := by
  induction l with
  | nil => exact absurd rfl hl
  | cons a t ih =>
    simp only [List.map_cons, List.sum_cons]
    by_cases ht : t = []
    · subst ht; simpa using hf a
    · exact add_pos (hf a) (ih ht)

/-! ## Claims C3 and C4 -/

/-- C3: on a non-empty input of length `n` (and an output buffer of the same length), with
the arithmetic read over the real numbers, `softmax_naive` returns an output of length `n`
whose elements are all non-negative and sum to exactly 1, whatever the magnitude of the
inputs. -/
theorem softmax_naive_nonneg_sum_one (input output : List ℝ) (n : Int) (h1 : 1 ≤ n)
    (hi : n = (input.length : Int)) (ho : output.length = input.length) :
    ∃ out, softmax_naive Real.exp input output n = some out ∧ (out.length : Int) = n ∧
      (∀ y ∈ out, 0 ≤ y) ∧ out.sum = 1 := by
  obtain ⟨m, _, hrun⟩ := softmax_naive_run Real.exp input output n h1 hi ho
  have hne : input ≠ [] := by
    intro h; rw [h] at hi; simp at hi; omega
  have hS : 0 < (input.map fun y => Real.exp (y - m)).sum :=
    sum_map_pos (fun y => Real.exp (y - m)) (fun x => Real.exp_pos _) input hne
  refine ⟨_, hrun, by simp [hi], ?_, ?_⟩
  · intro y hy
    obtain ⟨x, _, rfl⟩ := List.mem_map.mp hy
    exact div_nonneg (le_of_lt (Real.exp_pos _)) (le_of_lt hS)
  · rw [sum_map_div_const (fun x => Real.exp (x - m))]
    exact div_self (ne_of_gt hS)

theorem softmax_naive_nonneg_sum_one_witness :
    ∃ out, softmax_naive Real.exp [100000000, 0, -5] [0, 0, 0] 3 = some out ∧
      (out.length : Int) = 3 ∧ (∀ y ∈ out, 0 ≤ y) ∧ out.sum = 1 :=
  softmax_naive_nonneg_sum_one [100000000, 0, -5] [0, 0, 0] 3 (by decide) (by simp) (by simp)

/-- C4: with the arithmetic read exactly, `softmax_naive` is shift-invariant: on a non-empty
input `x` of length `n` and any constant `c`, the run on `x[i] + c` returns the same output,
element by element, as the run on `x`. -/
theorem softmax_naive_shift_invariant {α : Type u} [LinearOrderedField α] (exp : α → α)
    (input output : List α) (n : Int) (c : α) (h1 : 1 ≤ n)
    (hi : n = (input.length : Int)) (ho : output.length = input.length) :
    ∃ out, softmax_naive exp input output n = some out ∧
      softmax_naive exp (input.map (· + c)) output n = some out := by
  obtain ⟨m, hm, hmc⟩ := find_max_shift input n c h1 (le_of_eq hi)
  obtain ⟨m1, hm1, hrun1⟩ := softmax_naive_run exp input output n h1 hi ho
  obtain ⟨m2, hm2, hrun2⟩ :=
    softmax_naive_run exp (input.map (· + c)) output n h1 (by simpa using hi) (by simpa using ho)
  rw [hm] at hm1
  rw [hmc] at hm2
  cases hm1
  cases hm2
  refine ⟨_, hrun1, ?_⟩
  rw [hrun2]
  simp only [List.map_map, Function.comp_def, add_sub_add_right_eq_sub]

theorem softmax_naive_shift_invariant_witness :
    ∃ out, softmax_naive Real.exp [1, 2, 3] [0, 0, 0] 3 = some out ∧
      softmax_naive Real.exp (([1, 2, 3] : List ℝ).map (· + 100)) [0, 0, 0] 3 = some out :=
  softmax_naive_shift_invariant Real.exp [1, 2, 3] [0, 0, 0] 3 100 (by decide) (by simp) (by simp)

/-! ## Quantization -/

section Quantize
variable {α : Type u} [LinearOrderedField α] [FloorRing α]

theorem trunc_intCast (z : Int) : trunc (z : α) = z := by
  unfold trunc
  split_ifs <;> simp

theorem trunc_mono {x y : α} (h : x ≤ y) : trunc x ≤ trunc y := by
  unfold trunc
  by_cases hx : 0 ≤ x
  · have hy : 0 ≤ y := le_trans hx h
    simp only [hx, hy, if_true]
    exact Int.floor_mono h
  · by_cases hy : 0 ≤ y
    · simp only [hx, hy, if_true, if_false]
      have h1 : ⌈x⌉ ≤ 0 := Int.ceil_le.mpr (by simpa using le_of_lt (not_le.mp hx))
      exact le_trans h1 (Int.floor_nonneg.mpr hy)
    · simp only [hx, hy, if_false]
      exact Int.ceil_mono h

theorem abs_trunc_sub_lt_one (x : α) : |(trunc x : α) - x| < 1 := by
  unfold trunc
  rw [abs_lt]
  by_cases hx : 0 ≤ x
  · simp only [hx, if_true]
    have h1 := Int.floor_le x
    have h2 := Int.lt_floor_add_one x
    constructor <;> linarith
  · simp only [hx, if_false]
    have h1 := Int.le_ceil x
    have h2 := Int.ceil_lt_add_one x
    constructor <;> linarith

omit [FloorRing α] in
theorem quantize_clamp_bounds (v : α) : -127 ≤ quantize_clamp v ∧ quantize_clamp v ≤ 127 := by
  unfold quantize_clamp
  by_cases h1 : 127 < v
  · have : ¬ ((127 : α) < -127) := by norm_num
    simp [h1, this]
  · by_cases h2 : v < -127
    · simp [h1, h2]
    · simp only [h1, h2, if_false]
      exact ⟨not_lt.mp h2, not_lt.mp h1⟩

omit [FloorRing α] in
theorem quantize_clamp_of_abs_le (v : α) (h : |v| ≤ 127) : quantize_clamp v = v := by
  obtain ⟨h1, h2⟩ := abs_le.mp h
  unfold quantize_clamp
  simp [not_lt.mpr h1, not_lt.mpr h2]

theorem trunc_quantize_clamp_bounds (v : α) :
    -127 ≤ trunc (quantize_clamp v) ∧ trunc (quantize_clamp v) ≤ 127 := by
  obtain ⟨h1, h2⟩ := quantize_clamp_bounds v
  have e1 : trunc ((-127 : Int) : α) ≤ trunc (quantize_clamp v) :=
    trunc_mono (by push_cast; exact h1)
  have e2 : trunc (quantize_clamp v) ≤ trunc ((127 : Int) : α) :=
    trunc_mono (by push_cast; exact h2)
  rw [trunc_intCast] at e1 e2
  exact ⟨e1, e2⟩

/-- The clamp-then-truncate of the code gives the integer of the truncate-then-clamp
formula of the data model. -/
theorem trunc_quantize_clamp_eq_spec (rnd : α → α) (x scale : α) :
    trunc (quantize_clamp (rnd (x * scale))) = quantize_spec rnd x scale := by
  unfold quantize_spec
  generalize rnd (x * scale) = v
  have c127 : trunc (127 : α) = 127 := by
    have := trunc_intCast (α := α) 127
    simpa using this
  have cm127 : trunc (-127 : α) = -127 := by
    have := trunc_intCast (α := α) (-127)
    simpa using this
  by_cases h1 : 127 < v
  · have hq : quantize_clamp v = 127 := by
      have : ¬ ((127 : α) < -127) := by norm_num
      simp [quantize_clamp, h1, this]
    have ht : 127 ≤ trunc v := by
      have := trunc_mono (le_of_lt h1)
      rwa [c127] at this
    rw [hq, c127, min_eq_left ht]
    simp
  · by_cases h2 : v < -127
    · have hq : quantize_clamp v = -127 := by
        simp [quantize_clamp, h1, h2]
      have ht : trunc v ≤ -127 := by
        have := trunc_mono (le_of_lt h2)
        rwa [cm127] at this
      rw [hq, cm127, min_eq_right (le_trans ht (by norm_num)), max_eq_left ht]
    · have hq : quantize_clamp v = v := by simp [quantize_clamp, h1, h2]
      have ht1 : trunc v ≤ 127 := by
        have := trunc_mono (not_lt.mp h1)
        rwa [c127] at this
      have ht2 : -127 ≤ trunc v := by
        have := trunc_mono (not_lt.mp h2)
        rwa [cm127] at this
      rw [hq, min_eq_right ht1, max_eq_right ht2]

/-- Closed form of `quantize_tensor` on buffers holding at least `n` elements: it returns
(the cast never leaves `int8_t`), and `output[j]` for `j < n` is the truncation of the clamped
product. -/
theorem quantize_tensor_run (rnd : α → α) (input : List α) (output : List Int) (n : Int)
    (scale : α)
    (hi : n ≤ (input.length : Int)) (ho : n ≤ (output.length : Int)) :
    ∃ out, quantize_tensor rnd input output n scale = some out ∧ out.length = output.length ∧
      ∀ j : Nat, out[j]? =
        if (j : Int) < n then (input[j]?).map fun x => trunc (quantize_clamp (rnd (x * scale)))
        else output[j]? := by
  obtain ⟨s', hrun, ⟨k, hk, hkn, hlen, hpt⟩, hc⟩ :=
    loop_spec (fun s : Int × List Int => decide (s.1 < n)) (quantize_step rnd input scale)
      (fun s => ∃ k : Nat, s.1 = (k : Int) ∧ ((k : Int) ≤ n ∨ k = 0) ∧
        s.2.length = output.length ∧
        ∀ j : Nat, s.2[j]? =
          if j < k then (input[j]?).map fun x => trunc (quantize_clamp (rnd (x * scale)))
          else output[j]?)
      (fun s => (n - s.1).toNat)
      (by
        rintro ⟨i, out⟩ ⟨k, hk, hkn, hlen, hpt⟩ hc
        simp only at hk hlen hpt
        subst hk
        have hlt : (k : Int) < n := by simpa using hc
        have hki : k < input.length := by omega
        have hko : k < out.length := by omega
        have hb := trunc_quantize_clamp_bounds (rnd (input[k] * scale))
        have hcast : to_int8 (quantize_clamp (rnd (input[k] * scale))) =
            some (trunc (quantize_clamp (rnd (input[k] * scale)))) := by
          unfold to_int8
          rw [if_pos ⟨by omega, hb.2⟩]
        refine ⟨((k : Int) + 1, out.set k (trunc (quantize_clamp (rnd (input[k] * scale))))),
          ?_, ?_, ?_⟩
        · simp [quantize_step, rd_nat, wr_nat, List.getElem?_eq_getElem hki, hko, hcast]
        · refine ⟨k + 1, by simp, by omega, by simp [hlen], fun j => ?_⟩
          simp only [getElem?_set_map out k j _ hko]
          by_cases hjk : j = k
          · subst hjk
            simp [List.getElem?_eq_getElem hki]
          · have e : j < k + 1 ↔ j < k := by omega
            simp only [hjk, if_false, hpt j, e]
        · simp only; omega)
      (n.toNat + 1) (0, output)
      ⟨0, rfl, Or.inr rfl, rfl, fun j => by simp⟩
      (by simp only; omega)
  have hge : ¬ (s'.1 < n) := by simpa using hc
  rw [hk] at hge
  refine ⟨s'.2, by simp [quantize_tensor, hrun], hlen, fun j => ?_⟩
  have e : j < k ↔ (j : Int) < n := by omega
  simp only [hpt j, e]

end Quantize

section QuantizeClaims
variable {α : Type u} [LinearOrderedField α] [FloorRing α]

/-- On an input of length `n` and an output buffer of the same length, `quantize_tensor`
returns the list of the truncated clamped rounded products. -/
theorem quantize_tensor_eq_map (rnd : α → α) (input : List α) (output : List Int) (n : Int)
    (scale : α) (hi : n = (input.length : Int)) (ho : output.length = input.length) :
    quantize_tensor rnd input output n scale =
      some (input.map fun x => trunc (quantize_clamp (rnd (x * scale)))) := by
  obtain ⟨out, hrun, hlen, hpt⟩ :=
    quantize_tensor_run rnd input output n scale (le_of_eq hi) (by omega)
  rw [hrun]
  congr 1
  apply List.ext_getElem?
  intro j
  rw [hpt j, List.getElem?_map]
  by_cases hj : (j : Int) < n
  · simp only [hj, if_true]
  · have hj1 : input.length ≤ j := by omega
    have hj2 : output.length ≤ j := by omega
    simp [hj, List.getElem?_eq_none hj1, List.getElem?_eq_none hj2]

/-- The value `quantize_tensor` writes for a single element whose rounded product is `v`. -/
theorem quantize_tensor_single (rnd : α → α) (x s v : α) (hv : rnd (x * s) = v) :
    quantize_tensor rnd [x] [0] 1 s = some [trunc (quantize_clamp v)] := by
  rw [quantize_tensor_eq_map rnd [x] [0] 1 s (by simp) (by simp)]
  simp only [List.map_cons, List.map_nil, hv]

theorem trunc_pos_example : trunc ((29 : α) / 10) = 2 := by
  have h : (0 : α) ≤ 29 / 10 := by norm_num
  unfold trunc
  rw [if_pos h, Int.floor_eq_iff]
  constructor <;> norm_num

theorem trunc_neg_example : trunc (-(29 : α) / 10) = -2 := by
  have h : ¬ ((0 : α) ≤ -29 / 10) := by norm_num
  unfold trunc
  rw [if_neg h, Int.ceil_eq_iff]
  constructor <;> norm_num

/-- A monotone rounding that is exact on the integers up to 127 keeps a product of absolute
value at most 127 between its floor and its ceiling: the clamp leaves the rounded product
alone and its truncation is less than 1 away from the exact product. -/
theorem trunc_rnd_sub_lt_one (rnd : α → α) (hr : ∀ v w : α, v ≤ w → rnd v ≤ rnd w)
    (hz : ∀ z : Int, -127 ≤ z → z ≤ 127 → rnd (z : α) = (z : α)) (v : α) (hv : |v| ≤ 127) :
    quantize_clamp (rnd v) = rnd v ∧ |(trunc (rnd v) : α) - v| < 1 := by
  obtain ⟨hv1, hv2⟩ := abs_le.mp hv
  have hf1 : -127 ≤ ⌊v⌋ := Int.le_floor.mpr (by push_cast; exact hv1)
  have hc2 : ⌈v⌉ ≤ 127 := Int.ceil_le.mpr (by push_cast; exact hv2)
  have hfc : ⌊v⌋ ≤ ⌈v⌉ := Int.floor_le_ceil v
  have hlo : ((⌊v⌋ : Int) : α) ≤ rnd v := by
    have := hr _ _ (Int.floor_le v)
    rwa [hz ⌊v⌋ hf1 (by omega)] at this
  have hhi : rnd v ≤ ((⌈v⌉ : Int) : α) := by
    have := hr _ _ (Int.le_ceil v)
    rwa [hz ⌈v⌉ (by omega) hc2] at this
  have h127 : |rnd v| ≤ 127 := by
    rw [abs_le]
    have e1 : (((-127 : Int) : α)) ≤ ((⌊v⌋ : Int) : α) := by exact_mod_cast hf1
    have e2 : ((⌈v⌉ : Int) : α) ≤ (((127 : Int) : α)) := by exact_mod_cast hc2
    push_cast at e1 e2
    constructor <;> linarith
  have ht1 : ⌊v⌋ ≤ trunc (rnd v) := by
    have := trunc_mono hlo
    rwa [trunc_intCast] at this
  have ht2 : trunc (rnd v) ≤ ⌈v⌉ := by
    have := trunc_mono hhi
    rwa [trunc_intCast] at this
  have ht1' : ((⌊v⌋ : Int) : α) ≤ (trunc (rnd v) : α) := by exact_mod_cast ht1
  have ht2' : (trunc (rnd v) : α) ≤ ((⌈v⌉ : Int) : α) := by exact_mod_cast ht2
  refine ⟨quantize_clamp_of_abs_le _ h127, ?_⟩
  rw [abs_lt]
  have h3 := Int.lt_floor_add_one v
  have h4 := Int.ceil_lt_add_one v
  constructor <;> linarith

/-! ## Claims C5, C6 and C7 -/

/-- C5: for every input buffer of length `n`, every scale (of any sign), every rounding of
the product to `float` and every index `i < n`, `quantize_tensor` returns and the value
written to `output[i]` lies in `[-127, 127]` (so it is never -128, and the cast never leaves
`int8_t`); input 1000 with scale 1 (an exact product) gives 127 and input -1000 with scale 1
gives -127. -/
theorem quantize_tensor_range (rnd : α → α) (input : List α) (output : List Int) (n : Int)
    (scale : α) (hi : n = (input.length : Int)) (ho : output.length = input.length) :
    (∃ out, quantize_tensor rnd input output n scale = some out ∧
      out.length = output.length ∧
      ∀ i : Nat, (i : Int) < n → ∃ q : Int, out[i]? = some q ∧ -127 ≤ q ∧ q ≤ 127) ∧
    (rnd (1000 * 1) = 1000 → quantize_tensor rnd ([1000] : List α) [0] 1 1 = some [127]) ∧
    (rnd (-1000 * 1) = -1000 → quantize_tensor rnd ([-1000] : List α) [0] 1 1 = some [-127]) := by
  refine ⟨⟨_, quantize_tensor_eq_map rnd input output n scale hi ho, by simp [ho],
    fun i hin => ?_⟩, fun h => ?_, fun h => ?_⟩
  · have hil : i < input.length := by omega
    refine ⟨trunc (quantize_clamp (rnd (input[i] * scale))), ?_,
      trunc_quantize_clamp_bounds (rnd (input[i] * scale))⟩
    simp [List.getElem?_eq_getElem hil]
  · rw [quantize_tensor_single rnd 1000 1 1000 h]
    have hq : quantize_clamp (1000 : α) = ((127 : Int) : α) := by
      norm_num [quantize_clamp]
    rw [hq, trunc_intCast]
  · rw [quantize_tensor_single rnd (-1000) 1 (-1000) h]
    have hq : quantize_clamp (-1000 : α) = ((-127 : Int) : α) := by
      norm_num [quantize_clamp]
    rw [hq, trunc_intCast]

/-- C6: for every input of length `n`, every scale and every index, `quantize_tensor`
writes `clamp(trunc(x[i]*s), -127, 127)`, the truncate-then-clamp value of the data model
on the `float` product the code computes (the code clamps first and truncates after), for
every rounding of that product; `trunc` rounds toward zero: a product of 2.9 gives 2 and a
product of -2.9 gives -2, and a product that rounds to 7, as `0.7f * 10` does, gives 7. -/
theorem quantize_tensor_eq_spec (rnd : α → α) (input : List α) (output : List Int) (n : Int)
    (scale : α) (hi : n = (input.length : Int)) (ho : output.length = input.length) :
    quantize_tensor rnd input output n scale =
      some (input.map fun x => quantize_spec rnd x scale) ∧
    (∀ x s : α, rnd (x * s) = 29 / 10 → quantize_tensor rnd [x] [0] 1 s = some [2]) ∧
    (∀ x s : α, rnd (x * s) = -29 / 10 → quantize_tensor rnd [x] [0] 1 s = some [-2]) ∧
    (∀ x s : α, rnd (x * s) = 7 → quantize_tensor rnd [x] [0] 1 s = some [7]) := by
  refine ⟨?_, fun x s h => ?_, fun x s h => ?_, fun x s h => ?_⟩
  · rw [quantize_tensor_eq_map rnd input output n scale hi ho]
    simp only [trunc_quantize_clamp_eq_spec]
  · rw [quantize_tensor_single rnd x s _ h,
      quantize_clamp_of_abs_le _ (by rw [abs_le]; constructor <;> norm_num), trunc_pos_example]
  · rw [quantize_tensor_single rnd x s _ h,
      quantize_clamp_of_abs_le _ (by rw [abs_le]; constructor <;> norm_num), trunc_neg_example]
  · rw [quantize_tensor_single rnd x s _ h,
      quantize_clamp_of_abs_le _ (by rw [abs_le]; constructor <;> norm_num)]
    have := trunc_intCast (α := α) 7
    simpa using this

/-- C7: for a scale `s > 0`, a rounding of the product to `float` that is monotone and exact
on the integers up to 127, and every index `i` whose product `x[i]*s` has absolute value at
most 127, the quantized value `q` written by `quantize_tensor` satisfies
`|q/s - x[i]| < 1/s`. -/
theorem quantize_tensor_roundtrip (rnd : α → α) (hr : ∀ v w : α, v ≤ w → rnd v ≤ rnd w)
    (hz : ∀ z : Int, -127 ≤ z → z ≤ 127 → rnd (z : α) = (z : α))
    (input : List α) (output : List Int) (n : Int) (scale : α)
    (hs : 0 < scale) (hi : n = (input.length : Int)) (ho : output.length = input.length) :
    ∃ out, quantize_tensor rnd input output n scale = some out ∧
      ∀ (i : Nat) (h : i < input.length), |input[i] * scale| ≤ 127 →
        ∃ q : Int, out[i]? = some q ∧ |(q : α) / scale - input[i]| < 1 / scale := by
  refine ⟨_, quantize_tensor_eq_map rnd input output n scale hi ho, fun i h hb => ?_⟩
  obtain ⟨hcl, h1⟩ := trunc_rnd_sub_lt_one rnd hr hz (input[i] * scale) hb
  refine ⟨trunc (rnd (input[i] * scale)), ?_, ?_⟩
  · simp [List.getElem?_eq_getElem h, hcl]
  · have e : (trunc (rnd (input[i] * scale)) : α) / scale - input[i] =
        ((trunc (rnd (input[i] * scale)) : α) - input[i] * scale) / scale := by
      field_simp
      ring
    rw [e, abs_div, abs_of_pos hs]
    exact div_lt_div_of_pos_right h1 hs

end QuantizeClaims

theorem round_grid_mono (v w : ℚ) (h : v ≤ w) : round_grid v ≤ round_grid w := by
  unfold round_grid
  have hf : ⌊v * 8 + 1 / 2⌋ ≤ ⌊w * 8 + 1 / 2⌋ := Int.floor_mono (by linarith)
  have hf' : ((⌊v * 8 + 1 / 2⌋ : Int) : ℚ) ≤ ((⌊w * 8 + 1 / 2⌋ : Int) : ℚ) := by
    exact_mod_cast hf
  exact div_le_div_of_nonneg_right hf' (by norm_num)

theorem round_grid_int (z : Int) : round_grid (z : ℚ) = (z : ℚ) := by
  unfold round_grid
  have hf : ⌊(z : ℚ) * 8 + 1 / 2⌋ = z * 8 := by
    rw [Int.floor_eq_iff]
    push_cast
    constructor <;> linarith
  rw [hf]
  push_cast
  ring

/-- The product `0.7f * 10`, with `0.7f = 11744051 / 16777216`, is just below 7: a rounding
of the product gives 7 where the exact product would give 6. -/
theorem quantize_tensor_rounded_product :
    quantize_tensor round_grid [11744051 / 16777216] [0] 1 10 = some [7] ∧
    quantize_tensor (fun v : ℚ => v) [11744051 / 16777216] [0] 1 10 = some [6] := by
  constructor
  · have hv : round_grid (11744051 / 16777216 * 10) = 7 := by
      unfold round_grid
      have hf : ⌊(11744051 / 16777216 * 10 : ℚ) * 8 + 1 / 2⌋ = 56 := by
        rw [Int.floor_eq_iff]
        constructor <;> norm_num
      rw [hf]
      norm_num
    rw [quantize_tensor_single round_grid _ _ 7 hv,
      quantize_clamp_of_abs_le _ (by rw [abs_le]; constructor <;> norm_num)]
    have := trunc_intCast (α := ℚ) 7
    simp only [Int.cast_ofNat] at this
    rw [this]
  · rw [quantize_tensor_single (fun v : ℚ => v) _ _ _ rfl,
      quantize_clamp_of_abs_le _ (by rw [abs_le]; constructor <;> norm_num)]
    have hpos : (0 : ℚ) ≤ 11744051 / 16777216 * 10 := by norm_num
    have hf : trunc (11744051 / 16777216 * 10 : ℚ) = 6 := by
      unfold trunc
      rw [if_pos hpos, Int.floor_eq_iff]
      constructor <;> norm_num
    rw [hf]

/-- Saturation on a concrete rounding: with the rounding to multiples of 1/8, inputs 1000
and -1000 at scale 1 give 127 and -127. -/
theorem quantize_tensor_saturates :
    quantize_tensor round_grid [1000] [0] 1 1 = some [127] ∧
    quantize_tensor round_grid [-1000] [0] 1 1 = some [-127] := by
  have h1 : round_grid (1000 * 1) = 1000 := by
    have := round_grid_int 1000
    simpa using this
  have h2 : round_grid (-1000 * 1) = -1000 := by
    have := round_grid_int (-1000)
    simpa using this
  have hq1 : quantize_clamp (1000 : ℚ) = ((127 : Int) : ℚ) := by norm_num [quantize_clamp]
  have hq2 : quantize_clamp (-1000 : ℚ) = ((-127 : Int) : ℚ) := by norm_num [quantize_clamp]
  constructor
  · rw [quantize_tensor_single round_grid 1000 1 1000 h1, hq1, trunc_intCast]
  · rw [quantize_tensor_single round_grid (-1000) 1 (-1000) h2, hq2, trunc_intCast]

theorem quantize_tensor_range_witness :
    (∃ out, quantize_tensor round_grid ([1000, -1000, 1 / 2] : List ℚ) [0, 0, 0] 3 (-3)
        = some out ∧
      out.length = ([0, 0, 0] : List Int).length ∧
      ∀ i : Nat, (i : Int) < 3 → ∃ q : Int, out[i]? = some q ∧ -127 ≤ q ∧ q ≤ 127) ∧
    (round_grid (1000 * 1) = 1000 →
      quantize_tensor round_grid ([1000] : List ℚ) [0] 1 1 = some [127]) ∧
    (round_grid (-1000 * 1) = -1000 →
      quantize_tensor round_grid ([-1000] : List ℚ) [0] 1 1 = some [-127]) :=
  quantize_tensor_range round_grid ([1000, -1000, 1 / 2] : List ℚ) [0, 0, 0] 3 (-3) (by simp)
    (by simp)

theorem quantize_tensor_eq_spec_witness :
    quantize_tensor round_grid ([1000, 29 / 10, -200] : List ℚ) [0, 0, 0] 3 (1 / 2) =
      some (([1000, 29 / 10, -200] : List ℚ).map fun x => quantize_spec round_grid x (1 / 2)) ∧
    (∀ x s : ℚ, round_grid (x * s) = 29 / 10 →
      quantize_tensor round_grid [x] [0] 1 s = some [2]) ∧
    (∀ x s : ℚ, round_grid (x * s) = -29 / 10 →
      quantize_tensor round_grid [x] [0] 1 s = some [-2]) ∧
    (∀ x s : ℚ, round_grid (x * s) = 7 → quantize_tensor round_grid [x] [0] 1 s = some [7]) :=
  quantize_tensor_eq_spec round_grid ([1000, 29 / 10, -200] : List ℚ) [0, 0, 0] 3 (1 / 2)
    (by simp) (by simp)

theorem quantize_tensor_roundtrip_witness :
    ∃ out, quantize_tensor round_grid ([5 / 4, -7 / 3] : List ℚ) [0, 0] 2 10 = some out ∧
      ∀ (i : Nat) (h : i < ([5 / 4, -7 / 3] : List ℚ).length),
        |([5 / 4, -7 / 3] : List ℚ)[i] * 10| ≤ 127 →
        ∃ q : Int, out[i]? = some q ∧
          |(q : ℚ) / 10 - ([5 / 4, -7 / 3] : List ℚ)[i]| < 1 / 10 :=
  quantize_tensor_roundtrip round_grid round_grid_mono (fun z _ _ => round_grid_int z)
    ([5 / 4, -7 / 3] : List ℚ) [0, 0] 2 10 (by norm_num) (by simp) (by simp)

/-! ## Matrix multiplication -/

theorem matmul_int8_eq_mm (A B C : List Int) (N : Int) :
    matmul_int8 A B C N = mm sub_i32 (fun c a b => add_i32 c (a * b)) A B C N := rfl

theorem idx_ne (N r c i j : Nat) (hc : c < N) (hj : j < N) (h : ¬ (r = i ∧ c = j)) :
    r * N + c ≠ i * N + j := by
  intro e
  rcases Nat.lt_trichotomy r i with hlt | heq | hgt
  · have : (r + 1) * N ≤ i * N := Nat.mul_le_mul_right N hlt
    rw [Nat.add_mul] at this
    omega
  · subst heq
    exact h ⟨rfl, by omega⟩
  · have : (i + 1) * N ≤ r * N := Nat.mul_le_mul_right N hgt
    rw [Nat.add_mul] at this
    omega

theorem idx_lt (N r c : Nat) (hr : r < N) (hc : c < N) : r * N + c < N * N := by
  have : (r + 1) * N ≤ N * N := Nat.mul_le_mul_right N hr
  rw [Nat.add_mul] at this
  omega

theorem getElem?_eq_some_getD {α : Type u} (l : List α) (m : Nat) (d : α) (h : m < l.length) :
    l[m]? = some (l.getD m d) := by
  simp [List.getD, List.getElem?_eq_getElem h]

theorem matmul_cell_succ {α : Type u} [Semiring α] (A B C0 : List α) (N i j k : Nat) :
    matmul_cell A B C0 N i j (k + 1) =
      matmul_cell A B C0 N i j k + A.getD (i * N + k) 0 * B.getD (k * N + j) 0 := by
  simp only [matmul_cell, Finset.sum_range_succ, add_assoc]

section MatmulRuns
variable {α : Type u} [Semiring α] (sub : Int → Int → Int → Option Int)
  (acc : α → α → α → Option α) (A B C0 : List α) (N : Nat)

/-- The `j` loop at row `i` and reduction index `k` adds the product for `k` into every
cell of row `i`. -/
theorem mm_j_run (hB : B.length = N * N)
    (hsub : ∀ a c : Nat, a < N → c < N →
      sub (a : Int) (N : Int) (c : Int) = some ((a * N + c : Nat) : Int))
    (hacc : ∀ i k j : Nat, i < N → k < N → j < N →
      acc (matmul_cell A B C0 N i j k) (A.getD (i * N + k) 0) (B.getD (k * N + j) 0) =
        some (matmul_cell A B C0 N i j (k + 1)))
    (i k : Nat) (hi : i < N) (hk : k < N) (buf : List α) (hinv : mm_inv A B C0 N i k 0 buf) :
    ∃ s', loop (fun t : Int × List α => decide (t.1 < (N : Int)))
        (mm_j_step sub acc B N i k (A.getD (i * N + k) 0)) ((N : Int).toNat + 1) (0, buf) = some s' ∧
      mm_inv A B C0 N i (k + 1) 0 s'.2 := by
  obtain ⟨s', hrun, ⟨j, hj, hjN, hP⟩, hc⟩ :=
    loop_spec (fun t : Int × List α => decide (t.1 < (N : Int)))
      (mm_j_step sub acc B N i k (A.getD (i * N + k) 0))
      (fun s => ∃ j : Nat, s.1 = (j : Int) ∧ j ≤ N ∧ mm_inv A B C0 N i k j s.2)
      (fun s => ((N : Int) - s.1).toNat)
      (by
        rintro ⟨jj, b⟩ ⟨j, hj, hjN, hlen, hpt⟩ hc
        simp only at hj hlen hpt
        subst hj
        have hlt : j < N := by
          have : (j : Int) < (N : Int) := by simpa using hc
          omega
        have hidx : i * N + j < b.length := by rw [hlen]; exact idx_lt N i j hi hlt
        have hrB : rd B ((k * N + j : Nat) : Int) = some (B.getD (k * N + j) 0) := by
          rw [rd_nat]
          exact getElem?_eq_some_getD B _ 0 (by rw [hB]; exact idx_lt N k j hk hlt)
        have hcnt : mm_count N i k j i j = k := by simp [mm_count]
        have hrC : rd b ((i * N + j : Nat) : Int) = some (matmul_cell A B C0 N i j k) := by
          rw [rd_nat, hpt i j hi hlt, hcnt]
        refine ⟨((j : Int) + 1, b.set (i * N + j) (matmul_cell A B C0 N i j (k + 1))), ?_, ?_, ?_⟩
        · simp only [mm_j_step, hsub k j hk hlt, hsub i j hi hlt, hrB, hrC, Option.some_bind,
            hacc i k j hi hk hlt]
          rw [wr_nat b _ _ hidx]
          rfl
        · refine ⟨j + 1, by simp, by omega, by simp [hlen], fun r c hr hcN => ?_⟩
          simp only
          rw [getElem?_set_map b _ _ _ hidx]
          by_cases hrc : r = i ∧ c = j
          · obtain ⟨rfl, rfl⟩ := hrc
            simp [mm_count]
          · rw [if_neg (idx_ne N r c i j hcN hlt hrc), hpt r c hr hcN]
            have : mm_count N i k (j + 1) r c = mm_count N i k j r c := by
              unfold mm_count
              by_cases h1 : r < i
              · simp [h1]
              · by_cases h2 : r = i
                · have hcj : c ≠ j := fun e => hrc ⟨h2, e⟩
                  have e3 : c < j + 1 ↔ c < j := by omega
                  simp [h2, e3]
                · simp [h1, h2]
            rw [this]
        · simp only; omega)
      ((N : Int).toNat + 1) (0, buf)
      ⟨0, rfl, Nat.zero_le _, hinv⟩
      (by simp only; omega)
  have hge : ¬ (s'.1 < (N : Int)) := by simpa using hc
  rw [hj] at hge
  have hjN' : j = N := by omega
  subst hjN'
  refine ⟨s', hrun, hP.1, fun r c hr hcN => ?_⟩
  rw [hP.2 r c hr hcN]
  have : mm_count j i k j r c = mm_count j i (k + 1) 0 r c := by
    unfold mm_count
    simp [hcN]
  rw [this]

/-- The `k` loop at row `i` completes row `i`. -/
theorem mm_k_run (hA : A.length = N * N) (hB : B.length = N * N)
    (hsub : ∀ a c : Nat, a < N → c < N →
      sub (a : Int) (N : Int) (c : Int) = some ((a * N + c : Nat) : Int))
    (hacc : ∀ i k j : Nat, i < N → k < N → j < N →
      acc (matmul_cell A B C0 N i j k) (A.getD (i * N + k) 0) (B.getD (k * N + j) 0) =
        some (matmul_cell A B C0 N i j (k + 1)))
    (i : Nat) (hi : i < N) (buf : List α) (hinv : mm_inv A B C0 N i 0 0 buf) :
    ∃ s', loop (fun t : Int × List α => decide (t.1 < (N : Int)))
        (mm_k_step sub acc A B N i) ((N : Int).toNat + 1) (0, buf) = some s' ∧
      mm_inv A B C0 N (i + 1) 0 0 s'.2 := by
  obtain ⟨s', hrun, ⟨k, hk, hkN, hP⟩, hc⟩ :=
    loop_spec (fun t : Int × List α => decide (t.1 < (N : Int)))
      (mm_k_step sub acc A B N i)
      (fun s => ∃ k : Nat, s.1 = (k : Int) ∧ k ≤ N ∧ mm_inv A B C0 N i k 0 s.2)
      (fun s => ((N : Int) - s.1).toNat)
      (by
        rintro ⟨kk, b⟩ ⟨k, hk, hkN, hP⟩ hc
        simp only at hk hP
        subst hk
        have hlt : k < N := by
          have : (k : Int) < (N : Int) := by simpa using hc
          omega
        have hrA : rd A ((i * N + k : Nat) : Int) = some (A.getD (i * N + k) 0) := by
          rw [rd_nat]
          exact getElem?_eq_some_getD A _ 0 (by rw [hA]; exact idx_lt N i k hi hlt)
        obtain ⟨t, hjrun, hjP⟩ := mm_j_run sub acc A B C0 N hB hsub hacc i k hi hlt b hP
        refine ⟨((k : Int) + 1, t.2), ?_, ⟨k + 1, by simp, by omega, hjP⟩, ?_⟩
        · simp only [mm_k_step, hsub i k hi hlt, hrA, Option.some_bind, hjrun]
        · simp only; omega)
      ((N : Int).toNat + 1) (0, buf)
      ⟨0, rfl, Nat.zero_le _, hinv⟩
      (by simp only; omega)
  have hge : ¬ (s'.1 < (N : Int)) := by simpa using hc
  rw [hk] at hge
  have hkN' : k = N := by omega
  subst hkN'
  refine ⟨s', hrun, hP.1, fun r c hr hcN => ?_⟩
  rw [hP.2 r c hr hcN]
  have : mm_count k i k 0 r c = mm_count k (i + 1) 0 0 r c := by
    unfold mm_count
    by_cases h1 : r < i
    · have : r < i + 1 := by omega
      simp [h1, this]
    · by_cases h2 : r = i
      · subst h2; simp
      · have h3 : ¬ r < i + 1 := by omega
        by_cases h4 : r = i + 1 <;> simp [h1, h2, h3, h4]
  rw [this]

/-- Closed form of the common shape of the matrix kernels on `N x N` buffers, when no
accumulation fails: it returns and every cell holds its full textbook sum. -/
theorem mm_run (hA : A.length = N * N) (hB : B.length = N * N) (hC : C0.length = N * N)
    (hsub : ∀ a c : Nat, a < N → c < N →
      sub (a : Int) (N : Int) (c : Int) = some ((a * N + c : Nat) : Int))
    (hacc : ∀ i k j : Nat, i < N → k < N → j < N →
      acc (matmul_cell A B C0 N i j k) (A.getD (i * N + k) 0) (B.getD (k * N + j) 0) =
        some (matmul_cell A B C0 N i j (k + 1))) :
    ∃ out, mm sub acc A B C0 N = some out ∧ out.length = N * N ∧
      ∀ i j : Nat, i < N → j < N → out[i * N + j]? = some (matmul_cell A B C0 N i j N) := by
  obtain ⟨s', hrun, ⟨i, hi, hiN, hP⟩, hc⟩ :=
    loop_spec (fun t : Int × List α => decide (t.1 < (N : Int)))
      (mm_i_step sub acc A B N)
      (fun s => ∃ i : Nat, s.1 = (i : Int) ∧ i ≤ N ∧ mm_inv A B C0 N i 0 0 s.2)
      (fun s => ((N : Int) - s.1).toNat)
      (by
        rintro ⟨ii, b⟩ ⟨i, hi, hiN, hP⟩ hc
        simp only at hi hP
        subst hi
        have hlt : i < N := by
          have : (i : Int) < (N : Int) := by simpa using hc
          omega
        obtain ⟨t, hkrun, hkP⟩ := mm_k_run sub acc A B C0 N hA hB hsub hacc i hlt b hP
        refine ⟨((i : Int) + 1, t.2), ?_, ⟨i + 1, by simp, by omega, hkP⟩, ?_⟩
        · simp only [mm_i_step, hkrun, Option.some_bind]
        · simp only; omega)
      ((N : Int).toNat + 1) (0, C0)
      ⟨0, rfl, Nat.zero_le _, hC, fun r c hr hcN => by
        have : mm_count N 0 0 0 r c = 0 := by
          unfold mm_count
          by_cases h : r = 0 <;> simp [h]
        rw [this, getElem?_eq_some_getD C0 _ 0 (by rw [hC]; exact idx_lt N r c hr hcN)]
        simp [matmul_cell]⟩
      (by simp only; omega)
  have hge : ¬ (s'.1 < (N : Int)) := by simpa using hc
  rw [hi] at hge
  have hiN' : i = N := by omega
  subst hiN'
  refine ⟨s'.2, by simp only [mm, hrun, Option.map_some'], hP.1, fun r c hr hcN => ?_⟩
  rw [hP.2 r c hr hcN]
  simp [mm_count, hr]

end MatmulRuns

theorem getD_replicate_zero {α : Type u} [Zero α] (n m : Nat) :
    (List.replicate n (0 : α)).getD m 0 = 0 := by
  simp only [List.getD_eq_getElem?_getD, List.getElem?_replicate]
  split_ifs <;> rfl

theorem matmul_cell_zero {α : Type u} [Semiring α] (A B : List α) (N i j k : Nat) :
    matmul_cell A B (List.replicate (N * N) 0) N i j k =
      ∑ t in Finset.range k, A.getD (i * N + t) 0 * B.getD (t * N + j) 0 := by
  simp [matmul_cell, getD_replicate_zero]

theorem getD_bounded (l : List Int) (m : Nat) (h : ∀ a ∈ l, -127 ≤ a ∧ a ≤ 127) :
    -127 ≤ l.getD m 0 ∧ l.getD m 0 ≤ 127 := by
  rw [List.getD_eq_getElem?_getD]
  cases hm : l[m]? with
  | none => simp
  | some a => simpa using h a (List.getElem?_mem hm)

theorem int8_product_bounded (a b : Int) (ha : -127 ≤ a ∧ a ≤ 127) (hb : -127 ≤ b ∧ b ≤ 127) :
    -16129 ≤ a * b ∧ a * b ≤ 16129 := by
  obtain ⟨ha1, ha2⟩ := ha
  obtain ⟨hb1, hb2⟩ := hb
  constructor
  · nlinarith [mul_nonneg (sub_nonneg.mpr ha1) (sub_nonneg.mpr hb2),
      mul_nonneg (sub_nonneg.mpr ha2) (sub_nonneg.mpr hb1)]
  · nlinarith [mul_nonneg (sub_nonneg.mpr ha1) (sub_nonneg.mpr hb1),
      mul_nonneg (sub_nonneg.mpr ha2) (sub_nonneg.mpr hb2)]

/-- With entries in `[-127, 127]` and `C` zeroed, the accumulator after `k` products is
at most `k * 127 * 127` in absolute value. -/
theorem matmul_cell_bounded (A B : List Int) (N i j : Nat)
    (hA : ∀ a ∈ A, -127 ≤ a ∧ a ≤ 127) (hB : ∀ b ∈ B, -127 ≤ b ∧ b ≤ 127) (k : Nat) :
    -((k : Int) * 16129) ≤ matmul_cell A B (List.replicate (N * N) 0) N i j k ∧
      matmul_cell A B (List.replicate (N * N) 0) N i j k ≤ (k : Int) * 16129 := by
  induction k with
  | zero => simp [matmul_cell, getD_replicate_zero]
  | succ k ih =>
    rw [matmul_cell_succ]
    have hp := int8_product_bounded _ _ (getD_bounded A (i * N + k) hA)
      (getD_bounded B (k * N + j) hB)
    push_cast
    constructor <;> linarith [ih.1, ih.2, hp.1, hp.2]

theorem sub_i32_ok (a N c : Nat) (h : a * N + c ≤ 2 ^ 31 - 1) :
    sub_i32 (a : Int) (N : Int) (c : Int) = some ((a * N + c : Nat) : Int) := by
  have hp : ((a * N : Nat) : Int) = (a : Int) * (N : Int) := by push_cast; rfl
  have h1 : a * N ≤ 2 ^ 31 - 1 := by omega
  have h1' : ((a * N : Nat) : Int) ≤ 2 ^ 31 - 1 := by omega
  have h2' : ((a * N + c : Nat) : Int) ≤ 2 ^ 31 - 1 := by omega
  have h0 : (0 : Int) ≤ ((a * N : Nat) : Int) := Int.natCast_nonneg _
  have hm : mul_i32 (a : Int) (N : Int) = some ((a * N : Nat) : Int) := by
    unfold mul_i32
    rw [← hp, if_pos ⟨by omega, h1'⟩]
  have hadd : ((a * N : Nat) : Int) + (c : Int) = ((a * N + c : Nat) : Int) := by push_cast; rfl
  simp only [sub_i32, hm, Option.some_bind, add_i32]
  rw [hadd, if_pos ⟨by omega, h2'⟩]

theorem sub_i32_overflow (a N c : Nat) (h : 2 ^ 31 - 1 < a * N + c) :
    sub_i32 (a : Int) (N : Int) (c : Int) = none := by
  have hp : ((a * N : Nat) : Int) = (a : Int) * (N : Int) := by push_cast; rfl
  have h' : (2 : Int) ^ 31 - 1 < ((a * N : Nat) : Int) + (c : Int) := by omega
  unfold sub_i32 mul_i32
  rw [← hp]
  by_cases hm : -2 ^ 31 ≤ ((a * N : Nat) : Int) ∧ ((a * N : Nat) : Int) ≤ 2 ^ 31 - 1
  · rw [if_pos hm]
    simp only [Option.some_bind, add_i32]
    rw [if_neg (by omega)]
  · rw [if_neg hm]
    rfl

/-- A loop whose invariant keeps the condition true, and whose body either has no result or
keeps the invariant, has no result. -/
theorem loop_none {σ : Type u} (cond : σ → Bool) (body : σ → Option σ) (Inv : σ → Prop)
    (hstep : ∀ s, Inv s → cond s = true ∧ (body s = none ∨ ∃ s', body s = some s' ∧ Inv s')) :
    ∀ (fuel : Nat) (s : σ), Inv s → loop cond body fuel s = none := by
  intro fuel
  induction fuel with
  | zero => intro s _; rfl
  | succ k ih =>
    intro s hs
    obtain ⟨hc, hb⟩ := hstep s hs
    rcases hb with hb | ⟨s', hb, hs'⟩
    · simp [loop, hc, hb]
    · simp [loop, hc, hb, ih s' hs']

theorem rd_zeros (n idx : Nat) (h : idx < n) :
    rd (List.replicate n (0 : Int)) ((idx : Nat) : Int) = some 0 := by
  rw [rd_nat, List.getElem?_replicate, if_pos h]

theorem wr_zeros (n idx : Nat) (h : idx < n) :
    wr (List.replicate n (0 : Int)) ((idx : Nat) : Int) 0 = some (List.replicate n 0) := by
  rw [wr_nat _ _ _ (by simpa using h)]
  congr 1
  apply List.ext_getElem?
  intro j
  rw [getElem?_set_map _ _ _ _ (by simpa using h), List.getElem?_replicate]
  by_cases hj : j = idx
  · subst hj; simp [h]
  · simp [hj]

/-- One step of the `j` loop of `matmul_int8` in row 0 on all-zero matrices, when the
subscript `k * N + j` fits in `int`: the buffer stays all zero. -/
theorem matmul_int8_j_step_zeros (N k j : Nat) (hk : k < N) (hj : j < N)
    (hs : k * N + j ≤ 2 ^ 31 - 1) :
    matmul_int8_j_step (List.replicate (N * N) 0) (N : Int) 0 (k : Int) 0
        ((j : Int), List.replicate (N * N) 0) =
      some ((j : Int) + 1, List.replicate (N * N) 0) := by
  have hjN : j < N * N := by
    have := idx_lt N 0 j (by omega) hj
    simpa using this
  have hs0 : sub_i32 ((0 : Nat) : Int) (N : Int) (j : Int) = some ((j : Nat) : Int) := by
    have := sub_i32_ok 0 N j (by omega)
    simpa using this
  have hadd : add_i32 0 (0 * 0) = some 0 := by decide
  simp only [Nat.cast_zero] at hs0
  simp only [matmul_int8_j_step, sub_i32_ok k N j hs, Option.some_bind,
    rd_zeros (N * N) (k * N + j) (idx_lt N k j hk hj), hs0, rd_zeros (N * N) j hjN, hadd,
    wr_zeros (N * N) j hjN]

/-- The `j` loop of `matmul_int8` in row 0 on all-zero matrices returns when every subscript
`k * N + j` of the row of `B` fits in `int`. -/
theorem matmul_int8_j_loop_zeros (N k : Nat) (hk : k < N)
    (hs : ∀ j : Nat, j < N → k * N + j ≤ 2 ^ 31 - 1) :
    loop (fun t : Int × List Int => decide (t.1 < (N : Int)))
        (matmul_int8_j_step (List.replicate (N * N) 0) (N : Int) 0 (k : Int) 0)
        ((N : Int).toNat + 1) (0, List.replicate (N * N) 0) =
      some ((N : Int), List.replicate (N * N) 0) := by
  obtain ⟨s', hrun, ⟨j, hj, hjN, hz⟩, hc⟩ :=
    loop_spec (fun t : Int × List Int => decide (t.1 < (N : Int)))
      (matmul_int8_j_step (List.replicate (N * N) 0) (N : Int) 0 (k : Int) 0)
      (fun s => ∃ j : Nat, s.1 = (j : Int) ∧ j ≤ N ∧ s.2 = List.replicate (N * N) 0)
      (fun s => ((N : Int) - s.1).toNat)
      (by
        rintro ⟨jj, b⟩ ⟨j, hj, hjN, hz⟩ hc
        simp only at hj hz
        subst hj
        subst hz
        have hlt : j < N := by
          have : (j : Int) < (N : Int) := by simpa using hc
          omega
        exact ⟨_, matmul_int8_j_step_zeros N k j hk hlt (hs j hlt),
          ⟨j + 1, by simp, by omega, rfl⟩, by simp only; omega⟩)
      ((N : Int).toNat + 1) (0, List.replicate (N * N) 0)
      ⟨0, rfl, Nat.zero_le _, rfl⟩
      (by simp only; omega)
  have hge : ¬ (s'.1 < (N : Int)) := by simpa using hc
  rw [hj] at hge
  have hjN' : j = N := by omega
  rw [hrun]
  congr 1
  exact Prod.ext (by rw [hj, hjN']) hz

/-- On all-zero `N x N` matrices `matmul_int8` has no result as soon as a subscript
`K * N + J` with `K, J < N` does not fit in `int`, the earlier subscripts of row 0 fitting:
the run reaches that subscript. -/
theorem matmul_int8_zeros_none (N K J : Nat) (hN : N ≤ 2 ^ 31 - 1) (hK : K < N) (hJ : J < N)
    (hprev : ∀ k j : Nat, k < K → j < N → k * N + j ≤ 2 ^ 31 - 1)
    (hrow : ∀ j : Nat, j < J → K * N + j ≤ 2 ^ 31 - 1)
    (hov : 2 ^ 31 - 1 < K * N + J) :
    matmul_int8 (List.replicate (N * N) 0) (List.replicate (N * N) 0)
      (List.replicate (N * N) 0) (N : Int) = none := by
  -- the `j` loop at reduction index `K` reaches the subscript that overflows
  have hjfail : ∀ fuel : Nat,
      loop (fun t : Int × List Int => decide (t.1 < (N : Int)))
        (matmul_int8_j_step (List.replicate (N * N) 0) (N : Int) 0 (K : Int) 0)
        fuel (0, List.replicate (N * N) 0) = none := by
    intro fuel
    apply loop_none _ _
      (fun s => ∃ j : Nat, s.1 = (j : Int) ∧ j ≤ J ∧ s.2 = List.replicate (N * N) 0)
    · rintro ⟨jj, b⟩ ⟨j, hj, hjJ, hz⟩
      simp only at hj hz
      subst hj
      subst hz
      refine ⟨by simp only [decide_eq_true_eq]; omega, ?_⟩
      rcases Nat.lt_or_ge j J with hlt | hge
      · exact Or.inr ⟨_, matmul_int8_j_step_zeros N K j hK (by omega) (hrow j hlt),
          ⟨j + 1, by simp, by omega, rfl⟩⟩
      · have hjJ' : j = J := by omega
        subst hjJ'
        left
        simp only [matmul_int8_j_step, sub_i32_overflow K N j hov, Option.none_bind]
    · exact ⟨0, rfl, Nat.zero_le _, rfl⟩
  have hkfail : ∀ fuel : Nat,
      loop (fun t : Int × List Int => decide (t.1 < (N : Int)))
        (matmul_int8_k_step (List.replicate (N * N) 0) (List.replicate (N * N) 0) (N : Int) 0)
        fuel (0, List.replicate (N * N) 0) = none := by
    intro fuel
    apply loop_none _ _
      (fun s => ∃ k : Nat, s.1 = (k : Int) ∧ k ≤ K ∧ s.2 = List.replicate (N * N) 0)
    · rintro ⟨kk, b⟩ ⟨k, hk, hkK, hz⟩
      simp only at hk hz
      subst hk
      subst hz
      refine ⟨by simp only [decide_eq_true_eq]; omega, ?_⟩
      have hkN : k < N * N := by
        have := idx_lt N 0 k (by omega) (by omega)
        simpa using this
      have hs0 : sub_i32 0 (N : Int) (k : Int) = some ((k : Nat) : Int) := by
        have := sub_i32_ok 0 N k (by omega)
        simpa using this
      rcases Nat.lt_or_ge k K with hlt | hge
      · right
        refine ⟨((k : Int) + 1, List.replicate (N * N) 0), ?_, ⟨k + 1, by simp, by omega, rfl⟩⟩
        simp only [matmul_int8_k_step, hs0, Option.some_bind, rd_zeros (N * N) k hkN,
          matmul_int8_j_loop_zeros N k (by omega) (fun j hj => hprev k j hlt hj)]
      · have hkK' : k = K := by omega
        subst hkK'
        left
        simp only [matmul_int8_k_step, hs0, Option.some_bind, rd_zeros (N * N) k hkN,
          hjfail, Option.none_bind]
    · exact ⟨0, rfl, Nat.zero_le _, rfl⟩
  have hifail : loop (fun s : Int × List Int => decide (s.1 < (N : Int)))
      (matmul_int8_i_step (List.replicate (N * N) 0) (List.replicate (N * N) 0) (N : Int))
      ((N : Int).toNat + 1) (0, List.replicate (N * N) 0) = none := by
    apply loop_none _ _ (fun s => s = ((0 : Int), List.replicate (N * N) (0 : Int)))
    · rintro s rfl
      refine ⟨by simp only [decide_eq_true_eq]; omega, Or.inl ?_⟩
      simp only [matmul_int8_i_step, hkfail, Option.none_bind]
    · rfl
  simp only [matmul_int8, hifail, Option.map_none']

/-! ## Claim C10 -/

/-- C10, as stated, fails at `N = 46341`: the bound `N * 127 * 127 ≤ 2^31 - 1` holds and the
all-zero matrices have entries in `[-127, 127]`, but the subscript `k * N + j` at `k = 46340`,
`j = 41708` is `2^31`, which does not fit in `int`, and `matmul_int8` has no result. -/
theorem matmul_int8_subscript_overflow :
    46341 * 127 * 127 ≤ 2 ^ 31 - 1 ∧
    (46340 : Int) * 46341 + 41708 = 2 ^ 31 ∧
    sub_i32 46340 46341 41708 = none ∧
    matmul_int8 (List.replicate (46341 * 46341) 0) (List.replicate (46341 * 46341) 0)
      (List.replicate (46341 * 46341) 0) ((46341 : Nat) : Int) = none := by
  refine ⟨by norm_num, by norm_num, by decide, ?_⟩
  exact matmul_int8_zeros_none 46341 46340 41708 (by norm_num) (by norm_num) (by norm_num)
    (fun k j hk hj => by omega) (fun j hj => by omega) (by norm_num)

/-- C10, amended: for every `N` with `N * N ≤ 2^31` (so that every `int` subscript
`i * N + j` fits) and `N * 127 * 127 ≤ 2^31 - 1`, all `N x N` matrices `A`, `B` with entries in
`[-127, 127]` and `C` zeroed, `matmul_int8` returns (a subscript or an accumulation that
leaves the `int` range has no result, so nothing wrapped), every intermediate value of every
accumulator `C[i*N+j]` (its sum after `k ≤ N` products) lies in the `int32` range, and the
final `C[i*N+j]` is the exact integer sum `Σ_{k<N} A[i*N+k] * B[k*N+j]`. -/
theorem matmul_int8_no_overflow (A B : List Int) (N : Nat)
    (hNN : N * N ≤ 2 ^ 31) (hN : N * 127 * 127 ≤ 2 ^ 31 - 1)
    (hA : A.length = N * N) (hB : B.length = N * N)
    (hAr : ∀ a ∈ A, -127 ≤ a ∧ a ≤ 127) (hBr : ∀ b ∈ B, -127 ≤ b ∧ b ≤ 127) :
    ∃ out, matmul_int8 A B (List.replicate (N * N) 0) (N : Int) = some out ∧
      out.length = N * N ∧
      (∀ i j : Nat, i < N → j < N →
        out[i * N + j]? =
          some (∑ k in Finset.range N, A.getD (i * N + k) 0 * B.getD (k * N + j) 0)) ∧
      (∀ i j k : Nat, i < N → j < N → k ≤ N →
        -2 ^ 31 ≤ matmul_cell A B (List.replicate (N * N) 0) N i j k ∧
          matmul_cell A B (List.replicate (N * N) 0) N i j k ≤ 2 ^ 31 - 1) := by
  have hrange : ∀ i j k : Nat, k ≤ N →
      -2 ^ 31 ≤ matmul_cell A B (List.replicate (N * N) 0) N i j k ∧
        matmul_cell A B (List.replicate (N * N) 0) N i j k ≤ 2 ^ 31 - 1 := by
    intro i j k hk
    have hb := matmul_cell_bounded A B N i j hAr hBr k
    have h1 : (k : Int) * 16129 ≤ 2 ^ 31 - 1 := by
      have : k * 16129 ≤ 2 ^ 31 - 1 := by omega
      omega
    constructor <;> omega
  obtain ⟨out, hrun, hlen, hpt⟩ :=
    mm_run sub_i32 (fun c a b => add_i32 c (a * b)) A B (List.replicate (N * N) 0) N hA hB
      (by simp)
      (fun a c ha hc => sub_i32_ok a N c (by
        have := idx_lt N a c ha hc
        omega))
      (fun i k j _ hk _ => by
        have h := hrange i j (k + 1) (by omega)
        rw [matmul_cell_succ] at h
        simp only [add_i32]
        rw [if_pos h, matmul_cell_succ])
  refine ⟨out, by rw [matmul_int8_eq_mm]; exact hrun, hlen, fun i j hi hj => ?_,
    fun i j k _ _ hk => hrange i j k hk⟩
  rw [hpt i j hi hj, matmul_cell_zero]

theorem matmul_int8_no_overflow_witness :
    ∃ out, matmul_int8 [127, -127, 5, 0] [127, 3, -127, 1] (List.replicate (2 * 2) 0)
        ((2 : Nat) : Int) = some out ∧ out.length = 2 * 2 ∧
      (∀ i j : Nat, i < 2 → j < 2 →
        out[i * 2 + j]? =
          some (∑ k in Finset.range 2,
            ([127, -127, 5, 0] : List Int).getD (i * 2 + k) 0 *
              ([127, 3, -127, 1] : List Int).getD (k * 2 + j) 0)) ∧
      (∀ i j k : Nat, i < 2 → j < 2 → k ≤ 2 →
        -2 ^ 31 ≤ matmul_cell [127, -127, 5, 0] [127, 3, -127, 1] (List.replicate (2 * 2) 0) 2 i j k ∧
          matmul_cell [127, -127, 5, 0] [127, 3, -127, 1] (List.replicate (2 * 2) 0) 2 i j k ≤
            2 ^ 31 - 1) :=
  matmul_int8_no_overflow [127, -127, 5, 0] [127, 3, -127, 1] 2 (by decide) (by decide)
    (by simp) (by simp) (by decide) (by decide)

/-! ## The kernels on `N = 0`: claim C12 -/

/-- C12: called with `N = 0`, each of `relu_naive`, `relu_avx`, `gelu_naive`,
`quantize_tensor`, `matmul_naive` and `matmul_int8` returns the buffer it writes unchanged,
whatever the buffers are; this includes empty buffers, in which any read or write has no
result, so no element is accessed. -/
theorem kernels_noop_at_zero {α : Type u} [LinearOrderedField α] [FloorRing α]
    (tanh : α → α) :
    (∀ data : List α, relu_naive data 0 = some data) ∧
    (∀ data : List F32, relu_naive data 0 = some data) ∧
    (∀ data : List α, relu_avx data 0 = some data) ∧
    (∀ data : List F32, relu_avx data 0 = some data) ∧
    (∀ data : List α, gelu_naive tanh data 0 = some data) ∧
    (∀ (rnd : α → α) (input : List α) (output : List Int) (scale : α),
      quantize_tensor rnd input output 0 scale = some output) ∧
    (∀ A B C : List α, matmul_naive A B C 0 = some C) ∧
    (∀ A B C : List Int, matmul_int8 A B C 0 = some C) ∧
    relu_naive ([] : List F32) 0 = some [] ∧ relu_avx ([] : List F32) 0 = some [] ∧
    gelu_naive tanh [] 0 = some [] ∧
    quantize_tensor (fun v : α => v) [] [] 0 1 = some [] ∧
    matmul_naive ([] : List α) [] [] 0 = some [] ∧ matmul_int8 [] [] [] 0 = some [] := by
  have h1 : ∀ data : List α, relu_naive data 0 = some data := fun data => by
    simp [relu_naive, loop]
  have h1f : ∀ data : List F32, relu_naive data 0 = some data := fun data => by
    simp [relu_naive, loop]
  have h2 : ∀ data : List α, relu_avx data 0 = some data := fun data => by
    simp [relu_avx, loop]
  have h2f : ∀ data : List F32, relu_avx data 0 = some data := fun data => by
    simp [relu_avx, loop]
  have h3 : ∀ data : List α, gelu_naive tanh data 0 = some data := fun data => by
    simp [gelu_naive, loop]
  have h4 : ∀ (rnd : α → α) (input : List α) (output : List Int) (scale : α),
      quantize_tensor rnd input output 0 scale = some output := fun rnd input output scale => by
    simp [quantize_tensor, loop]
  have h5 : ∀ A B C : List α, matmul_naive A B C 0 = some C := fun A B C => by
    simp [matmul_naive, loop]
  have h6 : ∀ A B C : List Int, matmul_int8 A B C 0 = some C := fun A B C => by
    simp [matmul_int8, loop]
  exact ⟨h1, h1f, h2, h2f, h3, h4, h5, h6, h1f [], h2f [], h3 [], h4 _ [] [] 1, h5 [] [] [],
    h6 [] [] []⟩

/-! ## The gated activation -/

/-- Closed form of `gelu_naive` on a buffer holding at least `n` elements: it returns, the
length is kept, and exactly the elements below `n` are replaced by `gelu_elem`. -/
theorem gelu_naive_run {α : Type u} [Field α] (tanh : α → α) (data : List α) (n : Int)
    (hn : n ≤ (data.length : Int)) :
    ∃ out, gelu_naive tanh data n = some out ∧ out.length = data.length ∧
      ∀ j : Nat, out[j]? = (data[j]?).map fun x => if (j : Int) < n then gelu_elem tanh x else x := by
  obtain ⟨s', hrun, ⟨k, hk, hkn, hlen, hpt⟩, hc⟩ :=
    loop_spec (fun s : Int × List α => decide (s.1 < n)) (gelu_step tanh)
      (fun s => ∃ k : Nat, s.1 = (k : Int) ∧ ((k : Int) ≤ n ∨ k = 0) ∧
        s.2.length = data.length ∧
        ∀ j : Nat, s.2[j]? = (data[j]?).map fun x => if j < k then gelu_elem tanh x else x)
      (fun s => (n - s.1).toNat)
      (by
        rintro ⟨i, buf⟩ ⟨k, hk, hkn, hlen, hpt⟩ hc
        simp only at hk hlen hpt
        subst hk
        have hlt : (k : Int) < n := by simpa using hc
        have hkl : k < buf.length := by omega
        have hkl0 : k < data.length := by omega
        have hbk : buf[k]? = some data[k] := by
          rw [hpt k, List.getElem?_eq_getElem hkl0]; simp
        refine ⟨((k : Int) + 1, buf.set k (gelu_elem tanh data[k])), ?_, ?_, ?_⟩
        · simp [gelu_step, rd_nat, wr_nat, hbk, hkl]
        · refine ⟨k + 1, by simp, by omega, by simp [hlen], fun j => ?_⟩
          simp only [getElem?_set_map buf k j _ hkl]
          by_cases hjk : j = k
          · subst hjk
            simp [List.getElem?_eq_getElem hkl0]
          · have e : j < k + 1 ↔ j < k := by omega
            simp only [hjk, if_false, hpt j, e]
        · simp only; omega)
      (n.toNat + 1) (0, data)
      ⟨0, rfl, Or.inr rfl, rfl, fun j => by simp⟩
      (by simp only; omega)
  have hge : ¬ (s'.1 < n) := by simpa using hc
  rw [hk] at hge
  refine ⟨s'.2, by simp only [gelu_naive, hrun, Option.map_some'], hlen, fun j => ?_⟩
  have e : j < k ↔ (j : Int) < n := by omega
  simp only [hpt j, e]

theorem gelu_elem_zero {α : Type u} [Field α] (tanh : α → α) : gelu_elem tanh 0 = 0 := by
  simp [gelu_elem]

/-- C13: on a buffer of length `n`, `gelu_naive` returns, and every index `i` with
`data[i] = 0` holds exactly 0 after the call (whatever `tanh` is, with the arithmetic read
exactly). -/
theorem gelu_naive_zero {α : Type u} [Field α] (tanh : α → α) (data : List α) (n : Int)
    (hn : n = (data.length : Int)) :
    ∃ out, gelu_naive tanh data n = some out ∧ out.length = data.length ∧
      ∀ (i : Nat) (hi : i < data.length), data[i] = 0 → out[i]? = some 0 := by
  obtain ⟨out, hrun, hlen, hpt⟩ := gelu_naive_run tanh data n (le_of_eq hn)
  refine ⟨out, hrun, hlen, fun i hi h0 => ?_⟩
  have hin : (i : Int) < n := by omega
  rw [hpt i, List.getElem?_eq_getElem hi, h0]
  simp [hin, gelu_elem_zero]

theorem gelu_naive_zero_witness :
    ∃ out, gelu_naive Real.tanh [3, 0, -1] 3 = some out ∧
      out.length = ([3, 0, -1] : List ℝ).length ∧
      ∀ (i : Nat) (hi : i < ([3, 0, -1] : List ℝ).length),
        ([3, 0, -1] : List ℝ)[i] = 0 → out[i]? = some 0 :=
  gelu_naive_zero Real.tanh [3, 0, -1] 3 (by simp)

/-! ## The maximum: claim C11 -/

theorem f32_lt_irrefl (a : F32) : ¬ a < a := by
  intro h
  have h' : F32.lt a a = true := h
  cases a <;> simp [F32.lt] at h'

theorem f32_lt_trans (a b c : F32) (hab : a < b) (hbc : b < c) : a < c := by
  have hab' : F32.lt a b = true := hab
  have hbc' : F32.lt b c = true := hbc
  show F32.lt a c = true
  cases a <;> cases b <;> cases c <;> simp [F32.lt] at hab' hbc' ⊢ <;> linarith

/-- On any element type whose `<` is irreflexive and transitive (the `float` model `F32`
included, NaN and all), `find_max` on a buffer holding at least `n ≥ 1` elements returns one
of the first `n` elements, and none of them compares greater than it. -/
theorem find_max_run_strict {α : Type u} [LT α] [DecidableRel (α := α) (· < ·)]
    (hirr : ∀ a : α, ¬ a < a) (htr : ∀ a b c : α, a < b → b < c → a < c)
    (data : List α) (n : Int) (h1 : 1 ≤ n) (hn : n ≤ (data.length : Int)) :
    ∃ m, find_max data n = some m ∧ (∃ j : Nat, (j : Int) < n ∧ data[j]? = some m) ∧
      ∀ (j : Nat) (x : α), (j : Int) < n → data[j]? = some x → ¬ m < x := by
  have h0 : 0 < data.length := by omega
  obtain ⟨s', hrun, ⟨k, hk, hk1, hkn, hex, hub⟩, hc⟩ :=
    loop_spec (fun s : Int × α => decide (s.1 < n)) (find_max_step data)
      (fun s => ∃ k : Nat, s.1 = (k : Int) ∧ 1 ≤ k ∧ (k : Int) ≤ n ∧
        (∃ j : Nat, j < k ∧ data[j]? = some s.2) ∧
        ∀ (j : Nat) (x : α), j < k → data[j]? = some x → ¬ s.2 < x)
      (fun s => (n - s.1).toNat)
      (by
        rintro ⟨i, m⟩ ⟨k, hk, hk1, hkn, ⟨j0, hj0, hm⟩, hub⟩ hc
        simp only at hk hm hub
        subst hk
        have hlt : (k : Int) < n := by simpa using hc
        have hkl : k < data.length := by omega
        refine ⟨((k : Int) + 1, if m < data[k] then data[k] else m), ?_, ?_, ?_⟩
        · simp [find_max_step, rd_nat, List.getElem?_eq_getElem hkl]
        · refine ⟨k + 1, by simp, by omega, by omega, ?_, ?_⟩
          · by_cases hx : m < data[k]
            · exact ⟨k, by omega, by simp [hx, List.getElem?_eq_getElem hkl]⟩
            · exact ⟨j0, by omega, by simp [hx, hm]⟩
          · intro j x hj hjx
            by_cases hjk : j = k
            · subst hjk
              rw [List.getElem?_eq_getElem hkl] at hjx
              cases hjx
              by_cases hx : m < data[j]
              · rw [if_pos hx]; exact hirr _
              · rw [if_neg hx]; exact hx
            · have hle := hub j x (by omega) hjx
              by_cases hx : m < data[k]
              · rw [if_pos hx]
                exact fun h => hle (htr _ _ _ hx h)
              · rw [if_neg hx]; exact hle
        · simp only; omega)
      (n.toNat + 1) (1, data[0])
      ⟨1, rfl, le_refl _, by simpa using h1, ⟨0, by omega, by simp [List.getElem?_eq_getElem h0]⟩,
        fun j x hj hjx => by
          have : j = 0 := by omega
          subst this
          rw [List.getElem?_eq_getElem h0] at hjx
          cases hjx
          exact hirr _⟩
      (by simp only; omega)
  have hge : ¬ (s'.1 < n) := by simpa using hc
  rw [hk] at hge
  obtain ⟨j0, hj0, hm⟩ := hex
  refine ⟨s'.2, ?_, ⟨j0, by omega, hm⟩, fun j x hj hjx => hub j x (by omega) hjx⟩
  have e0 : rd data 0 = some data[0] := by
    have := rd_nat data 0
    simpa [List.getElem?_eq_getElem h0] using this
  simp only [find_max, e0, Option.some_bind, hrun, Option.map_some']

/-- On `float` buffers `find_max` returns an element that no element of the buffer compares
greater than, also when the buffer holds NaN; a NaN is returned only when it comes first. -/
theorem find_max_F32 (data : List F32) (n : Int) (h1 : 1 ≤ n) (hn : n = (data.length : Int)) :
    (∃ m, find_max data n = some m ∧ m ∈ data ∧ ∀ x ∈ data, ¬ m < x) ∧
    find_max [F32.nan, F32.fin 1] 2 = some F32.nan ∧
    find_max [F32.fin 1, F32.nan, F32.fin 2] 3 = some (F32.fin 2) := by
  refine ⟨?_, by decide, by decide⟩
  obtain ⟨m, hrun, ⟨j, _, hjm⟩, hub⟩ :=
    find_max_run_strict f32_lt_irrefl f32_lt_trans data n h1 (le_of_eq hn)
  refine ⟨m, hrun, List.getElem?_mem hjm, fun x hx => ?_⟩
  obtain ⟨i, hi, rfl⟩ := List.getElem_of_mem hx
  exact hub i _ (by omega) (List.getElem?_eq_getElem hi)

/-- C11: on a non-empty buffer of length `n ≥ 1` of linearly ordered values, `find_max`
returns a value that is an element of the buffer and is greater than or equal to every
element of the buffer; that value is the same whichever index holds it, since any element
with the two properties is equal to it. -/
theorem find_max_spec {α : Type u} [LinearOrder α] (data : List α) (n : Int) (h1 : 1 ≤ n)
    (hn : n = (data.length : Int)) :
    ∃ m, find_max data n = some m ∧ m ∈ data ∧ (∀ x ∈ data, x ≤ m) ∧
      ∀ m' ∈ data, (∀ x ∈ data, x ≤ m') → m' = m := by
  obtain ⟨m, hrun, ⟨j, _, hjm⟩, hub⟩ := find_max_run data n h1 (le_of_eq hn)
  have hmem : m ∈ data := List.getElem?_mem hjm
  have hle : ∀ x ∈ data, x ≤ m := by
    intro x hx
    obtain ⟨i, hi, rfl⟩ := List.getElem_of_mem hx
    exact hub i _ (by omega) (List.getElem?_eq_getElem hi)
  exact ⟨m, hrun, hmem, hle, fun m' hm' hle' => le_antisymm (hle m' hm') (hle' m hmem)⟩

theorem find_max_spec_witness :
    ∃ m, find_max ([3, 7, -2, 7, 5] : List ℚ) 5 = some m ∧ m ∈ ([3, 7, -2, 7, 5] : List ℚ) ∧
      (∀ x ∈ ([3, 7, -2, 7, 5] : List ℚ), x ≤ m) ∧
      ∀ m' ∈ ([3, 7, -2, 7, 5] : List ℚ), (∀ x ∈ ([3, 7, -2, 7, 5] : List ℚ), x ≤ m') → m' = m :=
  find_max_spec ([3, 7, -2, 7, 5] : List ℚ) 5 (by decide) (by simp)

/-! ## The stable softmax: claims C15, C16 and C17 -/

theorem sum_map_le_length {α : Type u} [LinearOrderedField α] (f : α → α) (l : List α)
    (hf : ∀ x ∈ l, f x ≤ 1) : (l.map f).sum ≤ (l.length : α) := by
  induction l with
  | nil => simp
  | cons a t ih =>
    simp only [List.map_cons, List.sum_cons, List.length_cons, Nat.cast_add, Nat.cast_one]
    have h1 := hf a (List.mem_cons_self a t)
    have h2 := ih (fun x hx => hf x (List.mem_cons_of_mem a hx))
    linarith

theorem le_sum_map_of_mem {α : Type u} [LinearOrderedField α] (f : α → α)
    (hf : ∀ x, 0 ≤ f x) (l : List α) (a : α) (ha : a ∈ l) : f a ≤ (l.map f).sum := by
  induction l with
  | nil => simp at ha
  | cons b t ih =>
    have hnn : 0 ≤ (t.map f).sum := List.sum_nonneg (by
      intro y hy
      obtain ⟨x, _, rfl⟩ := List.mem_map.mp hy
      exact hf x)
    simp only [List.map_cons, List.sum_cons]
    rcases List.mem_cons.mp ha with h | h
    · subst h; linarith
    · linarith [ih h, hf b]

/-- The sum of the exponentials of `softmax_naive` lies between 1 and the length of the
input, when `m` is an element of the input that bounds every element. -/
theorem softmax_sum_bounds (input : List ℝ) (m : ℝ) (hmem : m ∈ input)
    (hle : ∀ x ∈ input, x ≤ m) :
    1 ≤ (input.map fun x => Real.exp (x - m)).sum ∧
      (input.map fun x => Real.exp (x - m)).sum ≤ (input.length : ℝ) := by
  constructor
  · have h := le_sum_map_of_mem (fun x => Real.exp (x - m)) (fun x => le_of_lt (Real.exp_pos _))
      input m hmem
    simpa using h
  · apply sum_map_le_length (fun x => Real.exp (x - m)) input
    intro x hx
    exact Real.exp_le_one_iff.mpr (by linarith [hle x hx])

/-- The result of `find_max` on a non-empty buffer of length `n`, as an element of the list
that bounds the list. -/
theorem find_max_mem_bound {α : Type u} [LinearOrder α] (data : List α) (n : Int) (h1 : 1 ≤ n)
    (hn : n = (data.length : Int)) :
    ∃ m, find_max data n = some m ∧ m ∈ data ∧ ∀ x ∈ data, x ≤ m := by
  obtain ⟨m, hrun, ⟨j, _, hjm⟩, hub⟩ := find_max_run data n h1 (le_of_eq hn)
  refine ⟨m, hrun, List.getElem?_mem hjm, fun x hx => ?_⟩
  obtain ⟨i, hi, rfl⟩ := List.getElem_of_mem hx
  exact hub i _ (by omega) (List.getElem?_eq_getElem hi)

/-- C15, as stated, fails on the input `[1e8, 0, -5]` with an exponential that underflows
as the `float` one does: `find_max` returns `1e8`, the arguments of `exp` are `0`, `-1e8` and
`-100000005`, and the first loop of `softmax_naive` stores `1, 0, 0`: two unnormalised
exponentials are exactly 0, outside `(0, 1]`. -/
theorem softmax_exp_underflow :
    ∃ s1, find_max ([100000000, 0, -5] : List ℝ) 3 = some 100000000 ∧
      loop (fun s : Int × List ℝ × ℝ => decide (s.1 < 3))
        (softmax_exp_step (exp_flush Real.exp) [100000000, 0, -5] 100000000)
        ((3 : Int).toNat + 1) (0, [0, 0, 0], 0) = some s1 ∧
      softmax_naive (exp_flush Real.exp) [100000000, 0, -5] [0, 0, 0] 3 =
        (loop (fun s : Int × List ℝ => decide (s.1 < 3)) (softmax_div_step s1.2.2)
          ((3 : Int).toNat + 1) (0, s1.2.1)).map Prod.snd ∧
      s1.2.1 = [1, 0, 0] ∧ ¬ ∀ y ∈ s1.2.1, 0 < y ∧ y ≤ 1 := by
  obtain ⟨m, hmax, hmem, hle⟩ :=
    find_max_mem_bound ([100000000, 0, -5] : List ℝ) 3 (by decide) (by simp)
  have hm : m = 100000000 := by
    have h1 := hle 100000000 (by simp)
    simp only [List.mem_cons, List.mem_singleton, List.not_mem_nil, or_false] at hmem
    rcases hmem with h | h | h
    · exact h
    · rw [h] at h1; norm_num at h1
    · rw [h] at h1; norm_num at h1
  rw [hm] at hmax
  obtain ⟨s1, hrun1, hlen1, hpt1, _⟩ :=
    softmax_exp_run (exp_flush Real.exp) ([100000000, 0, -5] : List ℝ) [0, 0, 0] 100000000 3
      (by decide) (by simp) (by simp)
  have hs1 : s1.2.1 = [1, 0, 0] := by
    apply List.ext_getElem?
    intro j
    rw [hpt1 j]
    rcases j with _ | _ | _ | j
    · simp [exp_flush]
    · simp [exp_flush]; norm_num
    · simp [exp_flush]; norm_num
    · have : ¬ (((j + 1 + 1 + 1 : Nat) : Int) < 3) := by omega
      simp [this]
  refine ⟨s1, hmax, hrun1, ?_, hs1, ?_⟩
  · simp only [softmax_naive, hmax, Option.some_bind, hrun1]
  · rw [hs1]
    intro h
    have := (h 0 (by simp)).1
    exact lt_irrefl _ this

/-- C15, amended: in `softmax_naive` on a non-empty input of length `n`, with `m` the result
of `find_max`, every argument `input[i] - m` passed to `exp` is at most 0 and it is exactly 0
at some index; for every function `exp` the first loop stores `exp (input[i] - m)` at every
index and the result of `softmax_naive` is the second loop run on that state, so the
unnormalised exponentials lie in `[0, 1]` for an `exp` that maps the arguments `≤ 0` into
`[0, 1]` (as the `float` one does), and in `(0, 1]` for the real exponential. -/
theorem softmax_exp_args_nonpos (input output : List ℝ) (n : Int) (h1 : 1 ≤ n)
    (hi : n = (input.length : Int)) (ho : output.length = input.length) :
    ∃ m, find_max input n = some m ∧
      (∀ (i : Nat) (h : i < input.length), input[i] - m ≤ 0) ∧
      (∃ (j : Nat) (h : j < input.length), input[j] - m = 0) ∧
      (∀ exp : ℝ → ℝ, ∃ s1,
        loop (fun s : Int × List ℝ × ℝ => decide (s.1 < n)) (softmax_exp_step exp input m)
          (n.toNat + 1) (0, output, 0) = some s1 ∧
        softmax_naive exp input output n =
          (loop (fun s : Int × List ℝ => decide (s.1 < n)) (softmax_div_step s1.2.2)
            (n.toNat + 1) (0, s1.2.1)).map Prod.snd ∧
        (∀ (i : Nat) (h : i < input.length), s1.2.1[i]? = some (exp (input[i] - m))) ∧
        ((∀ t : ℝ, t ≤ 0 → 0 ≤ exp t ∧ exp t ≤ 1) →
          ∀ (i : Nat) (h : i < input.length),
            0 ≤ exp (input[i] - m) ∧ exp (input[i] - m) ≤ 1)) ∧
      (∀ (i : Nat) (h : i < input.length),
        0 < Real.exp (input[i] - m) ∧ Real.exp (input[i] - m) ≤ 1) := by
  obtain ⟨m, hmax, hmem, hle⟩ := find_max_mem_bound input n h1 hi
  have harg : ∀ (i : Nat) (h : i < input.length), input[i] - m ≤ 0 := fun i h => by
    linarith [hle _ (List.getElem_mem h)]
  refine ⟨m, hmax, harg, ?_, fun exp => ?_, fun i h =>
    ⟨Real.exp_pos _, Real.exp_le_one_iff.mpr (harg i h)⟩⟩
  · obtain ⟨j, hj, hjm⟩ := List.getElem_of_mem hmem
    exact ⟨j, hj, by rw [hjm]; ring⟩
  · obtain ⟨s1, hrun1, _, hpt1, _⟩ :=
      softmax_exp_run exp input output m n (by omega) (le_of_eq hi) (by omega)
    refine ⟨s1, hrun1, ?_, fun i h => ?_, fun hexp i h => hexp _ (harg i h)⟩
    · simp only [softmax_naive, hmax, Option.some_bind, hrun1]
    · have hin : (i : Int) < n := by omega
      rw [hpt1 i, if_pos hin, List.getElem?_eq_getElem h]
      rfl

theorem softmax_exp_args_nonpos_witness :
    ∃ m, find_max ([100000000, 0, -5] : List ℝ) 3 = some m ∧
      (∀ (i : Nat) (h : i < ([100000000, 0, -5] : List ℝ).length),
        ([100000000, 0, -5] : List ℝ)[i] - m ≤ 0) ∧
      (∃ (j : Nat) (h : j < ([100000000, 0, -5] : List ℝ).length),
        ([100000000, 0, -5] : List ℝ)[j] - m = 0) ∧
      (∀ exp : ℝ → ℝ, ∃ s1,
        loop (fun s : Int × List ℝ × ℝ => decide (s.1 < 3))
          (softmax_exp_step exp [100000000, 0, -5] m)
          ((3 : Int).toNat + 1) (0, [0, 0, 0], 0) = some s1 ∧
        softmax_naive exp [100000000, 0, -5] [0, 0, 0] 3 =
          (loop (fun s : Int × List ℝ => decide (s.1 < 3)) (softmax_div_step s1.2.2)
            ((3 : Int).toNat + 1) (0, s1.2.1)).map Prod.snd ∧
        (∀ (i : Nat) (h : i < ([100000000, 0, -5] : List ℝ).length),
          s1.2.1[i]? = some (exp (([100000000, 0, -5] : List ℝ)[i] - m))) ∧
        ((∀ t : ℝ, t ≤ 0 → 0 ≤ exp t ∧ exp t ≤ 1) →
          ∀ (i : Nat) (h : i < ([100000000, 0, -5] : List ℝ).length),
            0 ≤ exp (([100000000, 0, -5] : List ℝ)[i] - m) ∧
              exp (([100000000, 0, -5] : List ℝ)[i] - m) ≤ 1)) ∧
      (∀ (i : Nat) (h : i < ([100000000, 0, -5] : List ℝ).length),
        0 < Real.exp (([100000000, 0, -5] : List ℝ)[i] - m) ∧
          Real.exp (([100000000, 0, -5] : List ℝ)[i] - m) ≤ 1) :=
  softmax_exp_args_nonpos [100000000, 0, -5] [0, 0, 0] 3 (by decide) (by simp) (by simp)

/-- C16: in `softmax_naive` on a non-empty input of length `n`, the sum accumulated by the
first loop, which the second loop divides by, satisfies `1 ≤ sum ≤ n`, so the divisor is
not zero, and every element of the output is at most 1. -/
theorem softmax_sum_between (input output : List ℝ) (n : Int) (h1 : 1 ≤ n)
    (hi : n = (input.length : Int)) (ho : output.length = input.length) :
    ∃ m s1 out, find_max input n = some m ∧
      loop (fun s : Int × List ℝ × ℝ => decide (s.1 < n)) (softmax_exp_step Real.exp input m)
        (n.toNat + 1) (0, output, 0) = some s1 ∧
      1 ≤ s1.2.2 ∧ s1.2.2 ≤ (n : ℝ) ∧ s1.2.2 ≠ 0 ∧
      (loop (fun s : Int × List ℝ => decide (s.1 < n)) (softmax_div_step s1.2.2)
        (n.toNat + 1) (0, s1.2.1)).map Prod.snd = some out ∧
      softmax_naive Real.exp input output n = some out ∧ ∀ y ∈ out, y ≤ 1 := by
  obtain ⟨m, hmax, hmem, hle⟩ := find_max_mem_bound input n h1 hi
  obtain ⟨s1, hrun1, _, _, hsum1⟩ :=
    softmax_exp_run Real.exp input output m n (by omega) (le_of_eq hi) (by omega)
  obtain ⟨m', hmax', hrun⟩ := softmax_naive_run Real.exp input output n h1 hi ho
  rw [hmax] at hmax'
  cases hmax'
  have hT : input.take n.toNat = input := by
    apply List.take_of_length_le; omega
  rw [hT] at hsum1
  obtain ⟨hS1, hSn⟩ := softmax_sum_bounds input m hmem hle
  have hnR : (n : ℝ) = (input.length : ℝ) := by rw [hi]; simp
  have hdiv : (loop (fun s : Int × List ℝ => decide (s.1 < n)) (softmax_div_step s1.2.2)
      (n.toNat + 1) (0, s1.2.1)).map Prod.snd =
      softmax_naive Real.exp input output n := by
    simp only [softmax_naive, hmax, Option.some_bind, hrun1]
  refine ⟨m, s1, _, hmax, hrun1, by rw [hsum1]; exact hS1, by rw [hsum1, hnR]; exact hSn,
    by rw [hsum1]; linarith, by rw [hdiv]; exact hrun, hrun, ?_⟩
  intro y hy
  obtain ⟨x, hx, rfl⟩ := List.mem_map.mp hy
  have hx1 : Real.exp (x - m) ≤ 1 := Real.exp_le_one_iff.mpr (by linarith [hle x hx])
  exact div_le_one_of_le₀ (le_trans hx1 hS1) (by linarith)

theorem softmax_sum_between_witness :
    ∃ m s1 out, find_max ([1, 2, 3] : List ℝ) 3 = some m ∧
      loop (fun s : Int × List ℝ × ℝ => decide (s.1 < 3)) (softmax_exp_step Real.exp [1, 2, 3] m)
        ((3 : Int).toNat + 1) (0, [0, 0, 0], 0) = some s1 ∧
      1 ≤ s1.2.2 ∧ s1.2.2 ≤ ((3 : Int) : ℝ) ∧ s1.2.2 ≠ 0 ∧
      (loop (fun s : Int × List ℝ => decide (s.1 < 3)) (softmax_div_step s1.2.2)
        ((3 : Int).toNat + 1) (0, s1.2.1)).map Prod.snd = some out ∧
      softmax_naive Real.exp [1, 2, 3] [0, 0, 0] 3 = some out ∧ ∀ y ∈ out, y ≤ 1 :=
  softmax_sum_between [1, 2, 3] [0, 0, 0] 3 (by decide) (by simp) (by simp)

/-- C17: `softmax_naive` preserves order on a non-empty input `x` of length `n`: for all
indices `i, j`, `x[i] ≤ x[j]` gives `output[i] ≤ output[j]` and `x[i] = x[j]` gives
`output[i] = output[j]`; so an index whose input bounds every input has an output that
bounds every output. -/
theorem softmax_naive_monotone (input output : List ℝ) (n : Int) (h1 : 1 ≤ n)
    (hi : n = (input.length : Int)) (ho : output.length = input.length) :
    ∃ (out : List ℝ) (hlen : out.length = input.length),
      softmax_naive Real.exp input output n = some out ∧
      (∀ (i j : Nat) (h : i < input.length) (h' : j < input.length),
        (input[i] ≤ input[j] → out[i] ≤ out[j]) ∧ (input[i] = input[j] → out[i] = out[j])) ∧
      ∀ (j : Nat) (h' : j < input.length), (∀ (i : Nat) (h : i < input.length),
        input[i] ≤ input[j]) → ∀ (i : Nat) (h : i < input.length), out[i] ≤ out[j] := by
  obtain ⟨m, _, hrun⟩ := softmax_naive_run Real.exp input output n h1 hi ho
  have hne : input ≠ [] := by
    intro h; rw [h] at hi; simp at hi; omega
  have hS : 0 < (input.map fun y => Real.exp (y - m)).sum :=
    sum_map_pos (fun y => Real.exp (y - m)) (fun x => Real.exp_pos _) input hne
  have hmono : ∀ (i j : Nat) (h : i < input.length) (h' : j < input.length),
      input[i] ≤ input[j] →
      Real.exp (input[i] - m) / (input.map fun y => Real.exp (y - m)).sum ≤
        Real.exp (input[j] - m) / (input.map fun y => Real.exp (y - m)).sum := by
    intro i j h h' hle
    exact div_le_div_of_nonneg_right (Real.exp_le_exp.mpr (by linarith)) (le_of_lt hS)
  refine ⟨_, by simp, hrun, fun i j h h' => ⟨fun hle => ?_, fun heq => ?_⟩,
    fun j h' hall i h => ?_⟩
  · simpa using hmono i j h h' hle
  · simp [heq]
  · simpa using hmono i j h h' (hall i h)

theorem softmax_naive_monotone_witness :
    ∃ (out : List ℝ) (hlen : out.length = ([2, -1, 2, 5] : List ℝ).length),
      softmax_naive Real.exp [2, -1, 2, 5] [0, 0, 0, 0] 4 = some out ∧
      (∀ (i j : Nat) (h : i < ([2, -1, 2, 5] : List ℝ).length)
        (h' : j < ([2, -1, 2, 5] : List ℝ).length),
        (([2, -1, 2, 5] : List ℝ)[i] ≤ ([2, -1, 2, 5] : List ℝ)[j] → out[i] ≤ out[j]) ∧
        (([2, -1, 2, 5] : List ℝ)[i] = ([2, -1, 2, 5] : List ℝ)[j] → out[i] = out[j])) ∧
      ∀ (j : Nat) (h' : j < ([2, -1, 2, 5] : List ℝ).length),
        (∀ (i : Nat) (h : i < ([2, -1, 2, 5] : List ℝ).length),
          ([2, -1, 2, 5] : List ℝ)[i] ≤ ([2, -1, 2, 5] : List ℝ)[j]) →
        ∀ (i : Nat) (h : i < ([2, -1, 2, 5] : List ℝ).length), out[i] ≤ out[j] :=
  softmax_naive_monotone [2, -1, 2, 5] [0, 0, 0, 0] 4 (by decide) (by simp) (by simp)

/-! ## Quantization is monotone: claim C18 -/

theorem quantize_clamp_mono {α : Type u} [LinearOrderedField α] {v w : α} (h : v ≤ w) :
    quantize_clamp v ≤ quantize_clamp w := by
  have e : ∀ t : α, quantize_clamp t = max (-127) (min 127 t) := by
    intro t
    unfold quantize_clamp
    by_cases h1 : 127 < t
    · have : ¬ ((127 : α) < -127) := by norm_num
      simp [h1, this, min_eq_left (le_of_lt h1)]
    · by_cases h2 : t < -127
      · simp [h1, h2, min_eq_right (not_lt.mp h1), max_eq_left (le_of_lt h2)]
      · simp [h1, h2, min_eq_right (not_lt.mp h1), max_eq_right (not_lt.mp h2)]
  rw [e v, e w]
  exact max_le_max (le_refl _) (min_le_min (le_refl _) h)

/-- C18: `quantize_tensor` is monotone in its input, for every monotone rounding of the
product to `float`: on an input of length `n`, for all indices `i, j` with
`input[i] ≤ input[j]`, the quantised values satisfy `output[i] ≤ output[j]` when the scale is
non-negative and `output[j] ≤ output[i]` when the scale is non-positive. -/
theorem quantize_tensor_monotone {α : Type u} [LinearOrderedField α] [FloorRing α]
    (rnd : α → α) (hr : ∀ v w : α, v ≤ w → rnd v ≤ rnd w)
    (input : List α) (output : List Int) (n : Int) (scale : α)
    (hi : n = (input.length : Int)) (ho : output.length = input.length) :
    ∃ out, quantize_tensor rnd input output n scale = some out ∧
      ∀ (i j : Nat) (h : i < input.length) (h' : j < input.length), input[i] ≤ input[j] →
        ∃ a b : Int, out[i]? = some a ∧ out[j]? = some b ∧
          (0 ≤ scale → a ≤ b) ∧ (scale ≤ 0 → b ≤ a) := by
  refine ⟨_, quantize_tensor_eq_map rnd input output n scale hi ho, fun i j h h' hle => ?_⟩
  refine ⟨trunc (quantize_clamp (rnd (input[i] * scale))),
    trunc (quantize_clamp (rnd (input[j] * scale))),
    by simp [List.getElem?_eq_getElem h], by simp [List.getElem?_eq_getElem h'],
    fun hs => ?_, fun hs => ?_⟩
  · exact trunc_mono (quantize_clamp_mono (hr _ _ (mul_le_mul_of_nonneg_right hle hs)))
  · exact trunc_mono (quantize_clamp_mono (hr _ _ (mul_le_mul_of_nonpos_right hle hs)))

theorem quantize_tensor_monotone_witness :
    ∃ out, quantize_tensor round_grid ([-3, 1 / 2, 40] : List ℚ) [0, 0, 0] 3 (-5 / 2)
        = some out ∧
      ∀ (i j : Nat) (h : i < ([-3, 1 / 2, 40] : List ℚ).length)
        (h' : j < ([-3, 1 / 2, 40] : List ℚ).length),
        ([-3, 1 / 2, 40] : List ℚ)[i] ≤ ([-3, 1 / 2, 40] : List ℚ)[j] →
        ∃ a b : Int, out[i]? = some a ∧ out[j]? = some b ∧
          (0 ≤ (-5 / 2 : ℚ) → a ≤ b) ∧ ((-5 / 2 : ℚ) ≤ 0 → b ≤ a) :=
  quantize_tensor_monotone round_grid round_grid_mono ([-3, 1 / 2, 40] : List ℚ) [0, 0, 0] 3
    (-5 / 2) (by simp) (by simp)

/-! ## The gated activation over the reals: claims C14 and C19 -/

theorem real_tanh_lt_one (u : ℝ) : Real.tanh u < 1 := by
  rw [Real.tanh_eq_sinh_div_cosh, div_lt_one (Real.cosh_pos u)]
  exact Real.sinh_lt_cosh u

theorem real_neg_one_lt_tanh (u : ℝ) : -1 < Real.tanh u := by
  have h := real_tanh_lt_one (-u)
  rw [Real.tanh_neg] at h
  linarith

theorem real_tanh_pos {u : ℝ} (hu : 0 < u) : 0 < Real.tanh u := by
  rw [Real.tanh_eq_sinh_div_cosh]
  exact div_pos (Real.sinh_pos_iff.mpr hu) (Real.cosh_pos u)

theorem real_tanh_neg {u : ℝ} (hu : u < 0) : Real.tanh u < 0 := by
  rw [Real.tanh_eq_sinh_div_cosh]
  exact div_neg_of_neg_of_pos (Real.sinh_neg_iff.mpr hu) (Real.cosh_pos u)

theorem one_sub_tanh_le (u : ℝ) : 1 - Real.tanh u ≤ 2 * Real.exp (-(2 * u)) := by
  have hc := Real.cosh_pos u
  have e : 1 - Real.tanh u = Real.exp (-u) / Real.cosh u := by
    rw [Real.tanh_eq_sinh_div_cosh, ← Real.cosh_sub_sinh]
    field_simp
  rw [e, div_le_iff₀ hc, Real.cosh_eq]
  have h2 : Real.exp (-(2 * u)) * Real.exp u = Real.exp (-u) := by
    rw [← Real.exp_add]; congr 1; ring
  have h3 : 0 < Real.exp (-(2 * u)) * Real.exp (-u) :=
    mul_pos (Real.exp_pos _) (Real.exp_pos _)
  nlinarith

theorem one_add_tanh_le (u : ℝ) : 1 + Real.tanh u ≤ 2 * Real.exp (2 * u) := by
  have h := one_sub_tanh_le (-u)
  rw [Real.tanh_neg] at h
  have e : -(2 * -u) = 2 * u := by ring
  rw [e] at h
  linarith

theorem gelu_elem_eq (x : ℝ) :
    gelu_elem Real.tanh x =
      0.5 * x * (1 + Real.tanh (SQRT_2_OVER_PI * (x + COEFF * (x * x * x)))) := rfl

theorem gelu_inner_pos {x : ℝ} (hx : 0 < x) :
    0 < (SQRT_2_OVER_PI : ℝ) * (x + COEFF * (x * x * x)) := by
  have h3 : 0 < x * x * x := by positivity
  have hS : (0 : ℝ) < SQRT_2_OVER_PI := by norm_num [SQRT_2_OVER_PI]
  have hC : (0 : ℝ) < COEFF := by norm_num [COEFF]
  positivity

theorem gelu_inner_neg {x : ℝ} (hx : x < 0) :
    (SQRT_2_OVER_PI : ℝ) * (x + COEFF * (x * x * x)) < 0 := by
  have h := gelu_inner_pos (neg_pos.mpr hx)
  have e : (SQRT_2_OVER_PI : ℝ) * (-x + COEFF * (-x * -x * -x)) =
      -((SQRT_2_OVER_PI : ℝ) * (x + COEFF * (x * x * x))) := by ring
  rw [e] at h
  linarith

theorem gelu_inner_ge {x : ℝ} (hx : 0 ≤ x) :
    x ≤ 2 * ((SQRT_2_OVER_PI : ℝ) * (x + COEFF * (x * x * x))) := by
  have h3 : 0 ≤ x * x * x := by positivity
  have e : (2 : ℝ) * ((SQRT_2_OVER_PI : ℝ) * (x + COEFF * (x * x * x))) =
      2 * SQRT_2_OVER_PI * x + 2 * SQRT_2_OVER_PI * COEFF * (x * x * x) := by ring
  have hS : (1 : ℝ) ≤ 2 * SQRT_2_OVER_PI := by norm_num [SQRT_2_OVER_PI]
  have hC : (0 : ℝ) ≤ 2 * SQRT_2_OVER_PI * COEFF := by norm_num [SQRT_2_OVER_PI, COEFF]
  rw [e]
  nlinarith [mul_nonneg hC h3, mul_nonneg (sub_nonneg.mpr hS) hx]

theorem gelu_inner_le {x : ℝ} (hx : x ≤ 0) :
    2 * ((SQRT_2_OVER_PI : ℝ) * (x + COEFF * (x * x * x))) ≤ x := by
  have h := gelu_inner_ge (neg_nonneg.mpr hx)
  have e : (2 : ℝ) * ((SQRT_2_OVER_PI : ℝ) * (-x + COEFF * (-x * -x * -x))) =
      -(2 * ((SQRT_2_OVER_PI : ℝ) * (x + COEFF * (x * x * x)))) := by ring
  rw [e] at h
  linarith

/-- C19: the per-element function of `gelu_naive`, over the reals, is bracketed between
`x/2` and the rectifier: `x/2 < g x < x` for `x > 0` and `x/2 < g x < 0` for `x < 0`; so
`g x` has the sign of `x` (and `g 0 = 0`), and `|g x| ≤ |x|` for every `x`. -/
theorem gelu_elem_bracket (x : ℝ) :
    (0 < x → x / 2 < gelu_elem Real.tanh x ∧ gelu_elem Real.tanh x < x) ∧
    (x < 0 → x / 2 < gelu_elem Real.tanh x ∧ gelu_elem Real.tanh x < 0) ∧
    (0 < x → 0 < gelu_elem Real.tanh x) ∧
    (x = 0 → gelu_elem Real.tanh x = 0) ∧
    |gelu_elem Real.tanh x| ≤ |x| := by
  have hpos : 0 < x → x / 2 < gelu_elem Real.tanh x ∧ gelu_elem Real.tanh x < x := by
    intro hx
    have ht1 := real_tanh_pos (gelu_inner_pos hx)
    have ht2 := real_tanh_lt_one (SQRT_2_OVER_PI * (x + COEFF * (x * x * x)))
    rw [gelu_elem_eq]
    constructor <;> nlinarith
  have hneg : x < 0 → x / 2 < gelu_elem Real.tanh x ∧ gelu_elem Real.tanh x < 0 := by
    intro hx
    have ht1 := real_tanh_neg (gelu_inner_neg hx)
    have ht2 := real_neg_one_lt_tanh (SQRT_2_OVER_PI * (x + COEFF * (x * x * x)))
    rw [gelu_elem_eq]
    constructor <;> nlinarith
  refine ⟨hpos, hneg, fun hx => by linarith [(hpos hx).1], fun h0 => ?_, ?_⟩
  · rw [h0]; exact gelu_elem_zero Real.tanh
  · rcases lt_trichotomy x 0 with hx | hx | hx
    · obtain ⟨h1, h2⟩ := hneg hx
      rw [abs_of_neg h2, abs_of_neg hx]
      linarith
    · rw [hx, gelu_elem_zero Real.tanh]
    · obtain ⟨h1, h2⟩ := hpos hx
      rw [abs_of_pos (by linarith), abs_of_pos hx]
      linarith

theorem tendsto_mul_exp_neg_atTop :
    Filter.Tendsto (fun x : ℝ => x * Real.exp (-x)) Filter.atTop (nhds 0) := by
  have h := Real.tendsto_pow_mul_exp_neg_atTop_nhds_zero 1
  simpa using h

theorem tendsto_mul_exp_atBot :
    Filter.Tendsto (fun x : ℝ => x * Real.exp x) Filter.atBot (nhds 0) := by
  have h := tendsto_mul_exp_neg_atTop.comp Filter.tendsto_neg_atBot_atTop
  have h2 := h.neg
  simp only [neg_zero] at h2
  refine h2.congr (fun x => ?_)
  simp [Function.comp]

/-- For `x ≥ 0` the per-element function of `gelu_naive` is below `x` by at most
`x * exp (-x)`. -/
theorem gelu_elem_sub_bounds {x : ℝ} (hx : 0 ≤ x) :
    -(x * Real.exp (-x)) ≤ gelu_elem Real.tanh x - x ∧ gelu_elem Real.tanh x - x ≤ 0 := by
  have ht1 := one_sub_tanh_le (SQRT_2_OVER_PI * (x + COEFF * (x * x * x)))
  have ht2 := real_tanh_lt_one (SQRT_2_OVER_PI * (x + COEFF * (x * x * x)))
  have he : Real.exp (-(2 * ((SQRT_2_OVER_PI : ℝ) * (x + COEFF * (x * x * x))))) ≤
      Real.exp (-x) := Real.exp_le_exp.mpr (by linarith [gelu_inner_ge hx])
  rw [gelu_elem_eq]
  constructor
  · nlinarith [mul_le_mul_of_nonneg_left he hx, mul_le_mul_of_nonneg_left ht1 hx]
  · nlinarith

/-- For `x ≤ 0` the per-element function of `gelu_naive` lies between `x * exp x` and 0. -/
theorem gelu_elem_neg_bounds {x : ℝ} (hx : x ≤ 0) :
    x * Real.exp x ≤ gelu_elem Real.tanh x ∧ gelu_elem Real.tanh x ≤ 0 := by
  have ht1 := one_add_tanh_le (SQRT_2_OVER_PI * (x + COEFF * (x * x * x)))
  have ht2 := real_neg_one_lt_tanh (SQRT_2_OVER_PI * (x + COEFF * (x * x * x)))
  have he : Real.exp (2 * ((SQRT_2_OVER_PI : ℝ) * (x + COEFF * (x * x * x)))) ≤
      Real.exp x := Real.exp_le_exp.mpr (gelu_inner_le hx)
  rw [gelu_elem_eq]
  constructor
  · nlinarith [mul_le_mul_of_nonpos_left he hx, mul_le_mul_of_nonpos_left ht1 hx]
  · nlinarith

/-- C14: over the reals the per-element function `g` of `gelu_naive` has the stated
asymptotes: `g x - x` tends to 0 as `x` tends to `+∞`, and `g x` tends to 0 as `x` tends to
`-∞`. -/
theorem gelu_elem_asymptotes :
    Filter.Tendsto (fun x : ℝ => gelu_elem Real.tanh x - x) Filter.atTop (nhds 0) ∧
    Filter.Tendsto (fun x : ℝ => gelu_elem Real.tanh x) Filter.atBot (nhds 0) := by
  constructor
  · have hlow : Filter.Tendsto (fun x : ℝ => -(x * Real.exp (-x))) Filter.atTop (nhds 0) := by
      have := tendsto_mul_exp_neg_atTop.neg
      simpa using this
    refine tendsto_of_tendsto_of_tendsto_of_le_of_le' hlow tendsto_const_nhds ?_ ?_
    · filter_upwards [Filter.eventually_ge_atTop (0 : ℝ)] with x hx
      exact (gelu_elem_sub_bounds hx).1
    · filter_upwards [Filter.eventually_ge_atTop (0 : ℝ)] with x hx
      exact (gelu_elem_sub_bounds hx).2
  · refine tendsto_of_tendsto_of_tendsto_of_le_of_le' tendsto_mul_exp_atBot
      tendsto_const_nhds ?_ ?_
    · filter_upwards [Filter.eventually_le_atBot (0 : ℝ)] with x hx
      exact (gelu_elem_neg_bounds hx).1
    · filter_upwards [Filter.eventually_le_atBot (0 : ℝ)] with x hx
      exact (gelu_elem_neg_bounds hx).2

end BareMetal
